import Mathlib

/-!
Verification of the core subsystems of the rcore-camp kernel against its
specification.  Each Rust function named below is shallowly embedded as an
executable Lean definition; machine integers (`usize`, `isize`, `u32`) are
modelled as `Nat`/`Int`, Rust array indexing `a[i]` whose index may be out of
bounds is modelled with `Option` (a `none` result corresponds to a Rust
index-out-of-bounds panic), and the theorems at the end of the file settle
the specification claims against these definitions.
-/

set_option maxHeartbeats 1000000

/-! ## Banker (src/os/src/sync/banker.rs)

`Banker` holds `allocated`/`need` matrices over `MAX_THREADS = 16` threads
and `MAX_RESOURCE = 8` resources plus an `available` vector.  The matrices
are total functions on `Fin 16 × Fin 8`; the public operations take raw
`usize` indices exactly like the source and return `none` where the source
would panic on an out-of-bounds array access. -/

/-- `MAX_THREADS` from banker.rs. -/
abbrev MAX_THREADS : Nat := 16

/-- `MAX_RESOURCE` from banker.rs. -/
abbrev MAX_RESOURCE : Nat := 8

/-- The `Banker` struct from banker.rs. -/
structure Banker where
  allocated : Fin MAX_THREADS → Fin MAX_RESOURCE → Nat
  need : Fin MAX_THREADS → Fin MAX_RESOURCE → Nat
  available : Fin MAX_RESOURCE → Nat

/-- `Banker::new()`: all matrices zero. -/
def Banker.new : Banker :=
  { allocated := fun _ _ => 0, need := fun _ _ => 0, available := fun _ => 0 }

/-- Update one entry of a thread-by-resource matrix. -/
def upd2 (m : Fin MAX_THREADS → Fin MAX_RESOURCE → Nat)
    (t : Fin MAX_THREADS) (r : Fin MAX_RESOURCE) (v : Nat) :
    Fin MAX_THREADS → Fin MAX_RESOURCE → Nat :=
  Function.update m t (Function.update (m t) r v)

/-- The boolean test `self.need[i].iter().zip(work.iter()).all(|(&need,&avail)| need <= avail)`
from `Banker::is_safe`. -/
def needLe (b : Banker) (i : Fin MAX_THREADS) (work : Fin MAX_RESOURCE → Nat) : Bool :=
  decide (∀ r : Fin MAX_RESOURCE, b.need i r ≤ work r)

/-- The mutable state of the greedy scan in `Banker::is_safe`:
`work`, `finish` and `safe_seq`. -/
structure GreedyState where
  work : Fin MAX_RESOURCE → Nat
  finish : Fin MAX_THREADS → Bool
  safe_seq : List (Fin MAX_THREADS)

/-- One iteration of the inner `for i in 0..MAX_THREADS` loop of
`Banker::is_safe`: skip finished threads, and when `need[i] <= work`
accumulate `allocated[i]` into `work`, mark `i` finished, record it in
`safe_seq` and raise the `found` flag. -/
def greedyStep (b : Banker) (s : GreedyState × Bool) (i : Fin MAX_THREADS) :
    GreedyState × Bool :=
  let (st, found) := s
  if st.finish i then (st, found)
  else if needLe b i st.work then
    ({ work := fun j => st.work j + b.allocated i j,
       finish := Function.update st.finish i true,
       safe_seq := st.safe_seq ++ [i] }, true)
  else (st, found)

/-- One full pass of the inner `for` loop of `Banker::is_safe`, with the
`found` flag reset to `false` at the start of the pass. -/
def greedyPass (b : Banker) (st : GreedyState) : GreedyState × Bool :=
  (List.finRange MAX_THREADS).foldl (greedyStep b) (st, false)

/-- The outer `loop { ... if !found break }` of `Banker::is_safe`.  Each
productive pass marks at least one previously unfinished thread as finished,
so the source loop exits after at most `MAX_THREADS` productive passes plus
one non-productive pass; running `MAX_THREADS + 1` passes (a non-productive
pass leaves the state unchanged) therefore computes the source's final
state. -/
def greedyRun (b : Banker) : Nat → GreedyState → GreedyState
  | 0, st => st
  | fuel + 1, st =>
    let (st2, found) := greedyPass b st
    if found then greedyRun b fuel st2 else st2

/-- `Banker::is_safe`: run the greedy scan from `work = available`,
`finish = all false`, and report whether every thread finished. -/
def Banker.is_safe (b : Banker) : Bool :=
  let final := greedyRun b (MAX_THREADS + 1)
    { work := b.available, finish := fun _ => false, safe_seq := [] }
  (List.finRange MAX_THREADS).all (fun i => final.finish i)

/-- `Banker::try_allocate_one`.  `none` models the Rust panic that the
source hits when `thread_id = MAX_THREADS` slips past the `thread_id >
MAX_THREADS` guard and is then used to index the 16-row matrices. -/
def Banker.try_allocate_one (b : Banker) (thread_id resource_id : Nat) :
    Option (Banker × Bool) :=
  if MAX_THREADS < thread_id then some (b, false)
  else if hr : MAX_RESOURCE ≤ resource_id then some (b, false)
  else if ht : thread_id < MAX_THREADS then
    let t : Fin MAX_THREADS := ⟨thread_id, ht⟩
    let r : Fin MAX_RESOURCE := ⟨resource_id, Nat.lt_of_not_le hr⟩
    if b.need t r = 0 then some (b, false)
    else if b.available r = 0 then some (b, false)
    else
      let b1 : Banker :=
        { available := Function.update b.available r (b.available r - 1),
          allocated := upd2 b.allocated t r (b.allocated t r + 1),
          need := upd2 b.need t r (b.need t r - 1) }
      if ¬ b1.is_safe then
        -- roll back the three updates exactly as the source does
        some ({ available := Function.update b1.available r (b1.available r + 1),
                allocated := upd2 b1.allocated t r (b1.allocated t r - 1),
                need := upd2 b1.need t r (b1.need t r + 1) }, false)
      else some (b1, true)
  else none

/-- `Banker::allocate_one_nocheck`: same updates, no safety check. -/
def Banker.allocate_one_nocheck (b : Banker) (thread_id resource_id : Nat) :
    Option (Banker × Bool) :=
  if MAX_THREADS < thread_id then some (b, false)
  else if hr : MAX_RESOURCE ≤ resource_id then some (b, false)
  else if ht : thread_id < MAX_THREADS then
    let t : Fin MAX_THREADS := ⟨thread_id, ht⟩
    let r : Fin MAX_RESOURCE := ⟨resource_id, Nat.lt_of_not_le hr⟩
    if b.need t r = 0 then some (b, false)
    else if b.available r = 0 then some (b, false)
    else
      some ({ available := Function.update b.available r (b.available r - 1),
              allocated := upd2 b.allocated t r (b.allocated t r + 1),
              need := upd2 b.need t r (b.need t r - 1) }, true)
  else none

/-- `Banker::try_deallocate_one`. -/
def Banker.try_deallocate_one (b : Banker) (thread_id resource_id : Nat) :
    Option (Banker × Bool) :=
  if MAX_THREADS < thread_id then some (b, false)
  else if hr : MAX_RESOURCE ≤ resource_id then some (b, false)
  else if ht : thread_id < MAX_THREADS then
    let t : Fin MAX_THREADS := ⟨thread_id, ht⟩
    let r : Fin MAX_RESOURCE := ⟨resource_id, Nat.lt_of_not_le hr⟩
    if b.allocated t r = 0 then some (b, false)
    else
      some ({ available := Function.update b.available r (b.available r + 1),
              allocated := upd2 b.allocated t r (b.allocated t r - 1),
              need := upd2 b.need t r (b.need t r + 1) }, true)
  else none

/-- `Banker::dyn_expand_dealloc`: like `try_deallocate_one` but without
putting the unit back into `need`. -/
def Banker.dyn_expand_dealloc (b : Banker) (thread_id resource_id : Nat) :
    Option (Banker × Bool) :=
  if MAX_THREADS < thread_id then some (b, false)
  else if hr : MAX_RESOURCE ≤ resource_id then some (b, false)
  else if ht : thread_id < MAX_THREADS then
    let t : Fin MAX_THREADS := ⟨thread_id, ht⟩
    let r : Fin MAX_RESOURCE := ⟨resource_id, Nat.lt_of_not_le hr⟩
    if b.allocated t r = 0 then some (b, false)
    else
      some ({ available := Function.update b.available r (b.available r + 1),
              allocated := upd2 b.allocated t r (b.allocated t r - 1),
              need := b.need }, true)
  else none

/-- `Banker::setup_thread`: overwrite the whole `need` row of a thread. -/
def Banker.setup_thread (b : Banker) (thread_id : Nat)
    (needRow : Fin MAX_RESOURCE → Nat) : Option (Banker × Bool) :=
  if MAX_THREADS < thread_id then some (b, false)
  else if ht : thread_id < MAX_THREADS then
    some ({ b with need := Function.update b.need ⟨thread_id, ht⟩ needRow }, true)
  else none

/-- One iteration of the `for resource_id in 0..MAX_RESOURCE` loop of
`Banker::destroy_thread`: return the thread's allocation of that resource to
`available` and zero its `allocated` and `need` entries. -/
def destroyStep (t : Fin MAX_THREADS) (b : Banker) (r : Fin MAX_RESOURCE) : Banker :=
  { available := Function.update b.available r (b.available r + b.allocated t r),
    allocated := upd2 b.allocated t r 0,
    need := upd2 b.need t r 0 }

/-- `Banker::destroy_thread`. -/
def Banker.destroy_thread (b : Banker) (thread_id : Nat) : Option (Banker × Bool) :=
  if MAX_THREADS < thread_id then some (b, false)
  else if ht : thread_id < MAX_THREADS then
    some ((List.finRange MAX_RESOURCE).foldl (destroyStep ⟨thread_id, ht⟩) b, true)
  else none

/-! ## Semaphore and `sys_semaphore_down`
(src/os/src/sync/semaphore.rs, src/os/src/syscall/sync.rs) -/

/-- Modelled from the spec: the task lifecycle states.  The `TaskStatus`
enum variants `Blocked` and `Exited` are referenced by code under src/
(syscall/sync.rs, syscall/process.rs) but the enum definition shipped in
src/os/src/task/task.rs lists only `UnInit`, `Ready`, `Running`, `Zombie`;
the spec's §4.7 lifecycle `{Ready, Running, Blocked, Zombie}` supplies the
missing `Blocked` variant. -/
inductive TaskStatus where
  | UnInit | Ready | Running | Blocked | Zombie
deriving DecidableEq

/-- `SemaphoreInner` from semaphore.rs: `count` and `access_cnt` are
`isize`; the wait queue holds thread ids. -/
structure SemaphoreInner where
  count : Int
  access_cnt : Int
  wait_queue : List Nat

/-- `Semaphore::down`.  Returns the new inner state, the function's boolean
result `access_cnt >= 10000`, and whether the calling thread blocked
(`count < 0` after the decrement). -/
def Semaphore.down (s : SemaphoreInner) (tid : Nat) : SemaphoreInner × Bool × Bool :=
  let count := s.count - 1
  let access_cnt := s.access_cnt + 1
  let ret : Bool := decide (10000 ≤ access_cnt)
  if count < 0 then
    ({ count := count, access_cnt := access_cnt,
       wait_queue := s.wait_queue ++ [tid] }, ret, true)
  else
    ({ count := count, access_cnt := access_cnt, wait_queue := s.wait_queue }, ret, false)

/-- `Semaphore::up`: increment the count and, when it was non-positive,
wake the front waiter.  Always returns `true`. -/
def Semaphore.up (s : SemaphoreInner) : SemaphoreInner × Bool :=
  let count := s.count + 1
  if count ≤ 0 then
    ({ count := count, access_cnt := s.access_cnt,
       wait_queue := s.wait_queue.drop 1 }, true)
  else
    ({ count := count, access_cnt := s.access_cnt, wait_queue := s.wait_queue }, true)

/-- The slice of process state that `sys_semaphore_down` reads and writes:
the per-process banker, the `trace_deadlock` flag, the task table (the
source iterates `process_inner.tasks`, a vector of optional TCBs, and
counts the `Blocked` ones; `thread_count()` is the length of that vector),
and the semaphore addressed by `sem_id`. -/
structure DownState where
  banker : Banker
  trace_deadlock : Bool
  tasks : List (Option TaskStatus)
  sem : SemaphoreInner

/-- The first mutation of `sys_semaphore_down`:
`banker.exclusive_access().need[tid][sem_id] += 1`. -/
def needInc (b : Banker) (tid : Fin MAX_THREADS) (sem_id : Fin MAX_RESOURCE) : Banker :=
  { b with need := upd2 b.need tid sem_id (b.need tid sem_id + 1) }

/-- `sys_semaphore_down(sem_id)` for an in-bounds thread id and semaphore
id (the source indexes `need[tid][sem_id]` and `semaphore_list[sem_id]`
without guards, so the claims are stated at in-bounds indices).  Returns
the syscall return value, the post state, and whether the thread blocked
inside `sem.down()`. -/
def sys_semaphore_down (st : DownState) (tid : Fin MAX_THREADS)
    (sem_id : Fin MAX_RESOURCE) : Int × DownState × Bool :=
  -- banker.exclusive_access().need[tid][sem_id] += 1;
  let b1 := needInc st.banker tid sem_id
  if st.trace_deadlock ∧ ¬ b1.is_safe then
    -- unsafe: banker.exclusive_access().need[tid][sem_id] -= 1; return -0xDEAD
    let b2 := { b1 with
                need := upd2 b1.need tid sem_id (b1.need tid sem_id - 1) }
    (-0xDEAD, { st with banker := b2 }, false)
  else if st.trace_deadlock ∧
      st.tasks.countP (fun t => t = some TaskStatus.Blocked) ≥ st.tasks.length - 1 then
    -- all other threads blocked: return -0xDEAD (note: `need` is NOT rolled back here)
    (-0xDEAD, { st with banker := b1 }, false)
  else
    let (sem', ret, blocked) := Semaphore.down st.sem tid
    -- banker.exclusive_access().allocate_one_nocheck(tid, sem_id);
    -- (the `none` branch is unreachable: tid < MAX_THREADS, sem_id < MAX_RESOURCE)
    let b2 := match b1.allocate_one_nocheck tid sem_id with
      | some (b2, _) => b2
      | none => b1
    (if ret then 0 else -0xDEAD, { st with banker := b2, sem := sem' }, blocked)

/-! ## Blocking mutex (src/os/src/sync/mutex.rs)

`MutexBlockingInner` is `{locked, wait_queue, lock_holder}`.  The model
adds a ghost field `owner`: the tid of the thread that currently holds the
mutex, `none` when free.  A thread woken by `unlock` inherits the lock
(its `lock` call just returns after the wakeup, cf. `MutexBlocking::lock`
and spec §4.9 "wake front (they inherit the lock, `locked` remains
true)"), so `owner` becomes the woken thread. -/

/-- `usize::MAX`, the sentinel stored in `lock_holder` when free. -/
def USIZE_MAX : Nat := 2 ^ 64 - 1

/-- `MutexBlockingInner` plus the ghost `owner` field. -/
structure MutexBlockingInner where
  locked : Bool
  wait_queue : List Nat
  lock_holder : Nat
  owner : Option Nat

/-- `MutexBlocking::new()`. -/
def MutexBlocking.new : MutexBlockingInner :=
  { locked := false, wait_queue := [], lock_holder := USIZE_MAX, owner := none }

/-- `MutexBlocking::lock` called by thread `tid`: if locked, enqueue and
block; otherwise take the lock and record the holder. -/
def MutexBlockingInner.lock (m : MutexBlockingInner) (tid : Nat) : MutexBlockingInner :=
  if m.locked then
    { m with wait_queue := m.wait_queue ++ [tid] }
  else
    { m with locked := true, lock_holder := tid, owner := some tid }

/-- `MutexBlocking::unlock`: if the wait queue is non-empty, pop and wake
the front waiter, which inherits the lock (ghost `owner` moves to it; the
source leaves `locked` and `lock_holder` untouched on this path); else
clear `locked` and reset `lock_holder` to `usize::MAX`. -/
def MutexBlockingInner.unlock (m : MutexBlockingInner) : MutexBlockingInner :=
  match m.wait_queue with
  | w :: rest => { m with wait_queue := rest, owner := some w }
  | [] => { m with locked := false, lock_holder := USIZE_MAX, owner := none }

/-! ## Mailbox ring buffer (src/os/src/task/mailbox.rs)

`RingBuffer` is a 512-byte array with `head_` (write position) and `tail_`
(read position), both `usize`.  `is_full` computes `tail_ - head_` with
`usize` arithmetic; that subtraction underflows whenever `tail_ < head_`,
which happens in ordinary operation, so the buffer is only meaningful under
release-build wrapping semantics: the model computes those subtractions
modulo `2^64`.  The byte array is modelled as a total function, read and
written only at indices `< 512` (the operations keep `head_`/`tail_` below
512, so the source's indexing never panics). -/

/-- `MAX_RINGBUF_SIZE` from mailbox.rs. -/
def MAX_RINGBUF_SIZE : Nat := 512

/-- Wrapping `usize` subtraction: `x - y` modulo `2^64` (for `y < 2^64`). -/
def wrapSub (x y : Nat) : Nat := (x + 2 ^ 64 - y) % 2 ^ 64

/-- The `RingBuffer` struct. -/
structure RingBuffer where
  data_ : Nat → Nat
  head_ : Nat
  tail_ : Nat

/-- The `RingBufferStatus` enum. -/
inductive RingBufferStatus where
  | Full | Empty | Normal
deriving DecidableEq

/-- `RingBuffer::empty()`. -/
def RingBuffer.empty : RingBuffer := { data_ := fun _ => 0, head_ := 0, tail_ := 0 }

/-- `RingBuffer::length`. -/
def RingBuffer.length_ (rb : RingBuffer) : Nat :=
  if rb.head_ < rb.tail_ then rb.head_ + MAX_RINGBUF_SIZE - rb.tail_
  else rb.head_ - rb.tail_

/-- `RingBuffer::is_full`:
`tail_ - head_ == 1 || tail_ + MAX_RINGBUF_SIZE - head_ == 1`
under wrapping `usize` arithmetic. -/
def RingBuffer.is_full (rb : RingBuffer) : Bool :=
  wrapSub rb.tail_ rb.head_ == 1 || wrapSub (rb.tail_ + MAX_RINGBUF_SIZE) rb.head_ == 1

/-- `RingBuffer::is_empty`. -/
def RingBuffer.is_empty (rb : RingBuffer) : Bool := rb.tail_ == rb.head_

/-- `RingBuffer::append_u8`: when not full, store the byte at `head_`,
advance `head_` with wraparound, and report `Full` when the buffer has
just become full (note: in that case the byte HAS been stored). -/
def RingBuffer.append_u8 (rb : RingBuffer) (c : Nat) : RingBuffer × RingBufferStatus :=
  if rb.is_full then (rb, RingBufferStatus.Full)
  else
    let rb2 : RingBuffer :=
      { data_ := Function.update rb.data_ rb.head_ c,
        head_ := if rb.head_ == MAX_RINGBUF_SIZE - 1 then 0 else rb.head_ + 1,
        tail_ := rb.tail_ }
    if rb2.is_full then (rb2, RingBufferStatus.Full)
    else (rb2, RingBufferStatus.Normal)

/-- `RingBuffer::pop_front`. -/
def RingBuffer.pop_front (rb : RingBuffer) : Option Nat × RingBuffer :=
  if rb.is_empty then (none, rb)
  else
    (some (rb.data_ rb.tail_),
     { rb with tail_ := if rb.tail_ == MAX_RINGBUF_SIZE - 1 then 0 else rb.tail_ + 1 })

/-- `RingBuffer::push_bytes`: append bytes one by one; on an `append_u8`
returning `Full` the source `break`s out of the loop BEFORE incrementing
`nbytes_pushed`, so the byte that fills the buffer is stored but not
counted. -/
def RingBuffer.push_bytes : RingBuffer → List Nat → Nat × RingBuffer
  | rb, [] => (0, rb)
  | rb, c :: cs =>
    match rb.append_u8 c with
    | (rb2, RingBufferStatus.Full) => (0, rb2)
    | (rb2, _) =>
      let (n, rbf) := rb2.push_bytes cs
      (n + 1, rbf)

/-- `RingBuffer::pop_bytes` into a buffer of length `n`: pop until `n`
bytes are read or the buffer runs empty; returns the bytes read. -/
def RingBuffer.pop_bytes : RingBuffer → Nat → List Nat × RingBuffer
  | rb, 0 => ([], rb)
  | rb, n + 1 =>
    match rb.pop_front with
    | (none, rb2) => ([], rb2)
    | (some c, rb2) =>
      let (l, rbf) := rb2.pop_bytes n
      (c :: l, rbf)

/-! ## mmap policy (src/os/src/mm/utils.rs, mod mmap_handle)

`do_mmap` validates `start`/`prot`, page-rounds `len` and installs a framed
area when the target range is fully unmapped.  The page-table side
(`MemorySet` with `translate` / `insert_framed_area`) is an external API
per spec §1, modelled below from the spec. -/

/-- `PAGE_SIZE`. -/
def PAGE_SIZE : Nat := 4096

/-- `page_aligned`: `(addr & 0x0000_0FFF) == 0`. -/
def page_aligned (addr : Nat) : Bool := addr &&& 0x0FFF == 0

/-- `make_page_aligned`: round up to a page boundary,
`(addr | 0x0000_0FFF) + 1` when unaligned. -/
def make_page_aligned (addr : Nat) : Nat :=
  if page_aligned addr then addr else (addr ||| 0x0FFF) + 1

/-- Modelled from the spec: the `MapPermission` page-table permission bits
used by the external memory-set API (§4.5: the 3-bit user mask is
"shifted left by 1 to match page-table permission bits, and ORed with the
U (user) bit"), i.e. R=2, W=4, X=8, U=16; their union is `0b11110`. -/
def MapPermissionMASK : Nat := 0b11110

/-- Modelled from the spec: `MapPermission::U`. -/
def MapPermissionU : Nat := 0b10000

/-- Modelled from the spec: `MapPermission::from_bits` succeeds exactly
when the value contains no unknown bits. -/
def MapPermission.from_bits (v : Nat) : Option Nat :=
  if v &&& MapPermissionMASK == v then some v else none

/-- `uprot_to_permission`: reject `prot >= 8` and `prot & 0x7 == 0`, then
shift left by one and OR in the user bit. -/
def uprot_to_permission (prot : Nat) : Option Nat :=
  if 8 ≤ prot ∨ prot &&& 0x7 == 0 then none
  else (MapPermission.from_bits (prot <<< 1)).map (fun p => p ||| MapPermissionU)

/-- Modelled from the spec: the external memory-set API (§1: "treated as an
external memory-set API offering `insert_framed_area`, `unmap_range`,
`translate`, `token`").  `mapped vpn` is the page-table entry of virtual
page `vpn`: `translate(vpn)` yields a valid entry iff it is `some`. -/
structure MemorySet where
  mapped : Nat → Option Nat

/-- Modelled from the spec: `translate(vp)` followed by `is_valid()`. -/
def MemorySet.translate_is_valid (m : MemorySet) (vpn : Nat) : Bool :=
  (m.mapped vpn).isSome

/-- Modelled from the spec: `insert_framed_area(start_va, end_va, perm)`
installs a framed area covering `[floor(start_va), ceil(end_va))` with the
given permissions. -/
def MemorySet.insert_framed_area (m : MemorySet) (start_va end_va perm : Nat) : MemorySet :=
  { mapped := fun vpn =>
      if start_va / PAGE_SIZE ≤ vpn ∧ vpn < (end_va + PAGE_SIZE - 1) / PAGE_SIZE
      then some perm else m.mapped vpn }

/-- `_check_vaddr_if_mapped`: walk the virtual pages from `floor(start)` to
`floor(end)` (exclusive) and report whether any has a valid mapping. -/
def check_vaddr_if_mapped (m : MemorySet) (s e : Nat) : Bool :=
  (List.range (e / PAGE_SIZE - s / PAGE_SIZE)).any
    (fun i => m.translate_is_valid (s / PAGE_SIZE + i))

/-- `do_mmap(start, len, prot)` acting on the current task's memory set:
returns the syscall result and the post-state memory set. -/
def do_mmap (m : MemorySet) (start len prot : Nat) : Int × MemorySet :=
  if ¬ page_aligned start then (-1, m)
  else
    match uprot_to_permission prot with
    | none => (-1, m)
    | some p =>
      let len2 := make_page_aligned len
      if check_vaddr_if_mapped m start (start + len2) then (-1, m)
      else (0, m.insert_framed_area start (start + len2) p)

/-! ## easy-fs VFS layer (src/easy-fs/src/vfs.rs)

Only vfs.rs is shipped under src/; the `DiskInode`, `DirEntry` and
`EasyFileSystem` layers it builds on are modelled from the spec (§3, §4.2):
a directory is a sequence of 32-byte entries `(name, inode_id)`, a file
inode carries a `ref_count` (hard-link count) and a set of data blocks, and
the filesystem keeps a free list that `dealloc_data` returns blocks to.
The claims are about the root directory, so the state carries one directory
(the receiver of `hard_unlink`) plus the inode table. -/

/-- Modelled from the spec (§3 DiskInode): the per-file on-disk state the
claims need - the hard-link count and the file's data blocks. -/
structure DiskFile where
  ref_count : Nat
  dataBlocks : List Nat

/-- Filesystem state: the receiver directory's entries (in directory
order), the inode table, and the free list of deallocated data blocks. -/
structure EasyFS where
  rootDir : List (String × Nat)
  files : Nat → DiskFile
  freeList : List Nat

/-- `Inode::find_inode_id` / `Inode::find` on the root directory: linear
scan, first name match wins. -/
def EasyFS.find (fs : EasyFS) (name : String) : Option Nat :=
  (fs.rootDir.find? (fun e => e.1 == name)).map (fun e => e.2)

/-- `Inode::find_entry_by_inode`: index of the first directory entry whose
`inode_id` matches. -/
def find_entry_by_inode (entries : List (String × Nat)) (inode_id : Nat) : Option Nat :=
  entries.findIdx? (fun e => e.2 == inode_id)

/-- Modelled from the spec (§4.3 `clear`): free all data blocks of a file
and return them to the filesystem free list.  The source's `hard_unlink`
contains this call only as the commented-out line `// file.clear();`, so
nothing below invokes it. -/
def EasyFS.clear (fs : EasyFS) (file_id : Nat) : EasyFS :=
  let f2 : DiskFile := { (fs.files file_id) with dataBlocks := [] }
  { fs with
    files := Function.update fs.files file_id f2,
    freeList := fs.freeList ++ (fs.files file_id).dataBlocks }

/-- `Inode::hard_unlink(file)` with the root directory as receiver (which
is a directory, so the `is_dir_file` guard passes).  Mirrors vfs.rs lines
192-233: reject a zero `ref_count`, decrement it (`DiskInode::unref`,
modelled from spec §4.2: returns `alive = ref_count > 0` after the
decrement), and only when the count reached zero locate the entry by
inode id, swap-remove it and shrink the directory by one entry.  The
commented-out `file.clear()` of the source is likewise absent here, so the
file's data blocks stay allocated. -/
def EasyFS.hard_unlink (fs : EasyFS) (file_id : Nat) : Except String Unit × EasyFS :=
  if (fs.files file_id).ref_count = 0 then (Except.error "Inode double free", fs)
  else
    let f := fs.files file_id
    let alive := decide (0 < f.ref_count - 1)
    let f2 : DiskFile := { f with ref_count := f.ref_count - 1 }
    let fs1 : EasyFS := { fs with files := Function.update fs.files file_id f2 }
    if alive then (Except.ok (), fs1)
    else
      -- file.clear() is commented out in the source: data blocks not freed
      match find_entry_by_inode fs1.rootDir file_id with
      | none => (Except.error "CANNOT fild file entry", fs1)
      | some file_ent =>
        let nentries := fs1.rootDir.length
        let ent_back := nentries - 1
        let dir2 :=
          if ent_back ≠ file_ent then
            fs1.rootDir.set file_ent (fs1.rootDir.getD ent_back ("", 0))
          else fs1.rootDir
        (Except.ok (), { fs1 with rootDir := dir2.dropLast })

/-- `MutexBlocking::trace_lock_is_dead` (the conservative self-cycle
probe): report a deadlock iff the probing thread is already the recorded
`lock_holder` or already sits in the wait queue. -/
def MutexBlockingInner.trace_lock_is_dead (m : MutexBlockingInner) (current_tid : Nat) : Bool :=
  if m.lock_holder == current_tid then true
  else m.wait_queue.contains current_tid

/-! ## Specification-side definitions

These state the claims' declarative properties; the theorems below compare
them with the embedded code. -/

/-- Declarative execution of a thread order (spec §4.10): starting from
`work`, each thread in the list can finish (`need[t] ≤ work` pointwise)
and its `allocated` row is then added to `work`. -/
def validSeq (b : Banker) : List (Fin MAX_THREADS) → (Fin MAX_RESOURCE → Nat) → Prop
  | [], _ => True
  | t :: ts, work =>
    (∀ r, b.need t r ≤ work r) ∧ validSeq b ts (fun r => work r + b.allocated t r)

/-- The declarative safety condition of spec §4.10: some ordering of all
threads lets every thread finish starting from `work = available`. -/
def BankerDeclSafe (b : Banker) : Prop :=
  ∃ l : List (Fin MAX_THREADS),
    l.Nodup ∧ (∀ i : Fin MAX_THREADS, i ∈ l) ∧ validSeq b l b.available

/-- The running work vector after executing a list of threads. -/
def accWork (b : Banker) (w : Fin MAX_RESOURCE → Nat) (l : List (Fin MAX_THREADS))
    (r : Fin MAX_RESOURCE) : Nat :=
  w r + (l.map (fun t => b.allocated t r)).sum

/-- The conserved quantity of spec §8: `available[r] + Σ_t allocated[t][r]`. -/
def sumR (b : Banker) (r : Fin MAX_RESOURCE) : Nat :=
  b.available r + ∑ t : Fin MAX_THREADS, b.allocated t r

/-- The banker transition operations named by the invariant claim. -/
inductive BankerOp where
  | tryAlloc (t r : Nat)
  | allocNocheck (t r : Nat)
  | tryDealloc (t r : Nat)
  | dynExpand (t r : Nat)
  | destroy (t : Nat)

/-- Dispatch a `BankerOp` to the embedded operation. -/
def BankerOp.apply : BankerOp → Banker → Option (Banker × Bool)
  | BankerOp.tryAlloc t r, b => b.try_allocate_one t r
  | BankerOp.allocNocheck t r, b => b.allocate_one_nocheck t r
  | BankerOp.tryDealloc t r, b => b.try_deallocate_one t r
  | BankerOp.dynExpand t r, b => b.dyn_expand_dealloc t r
  | BankerOp.destroy t, b => b.destroy_thread t

/-- In-bounds indices for a `BankerOp`. -/
def BankerOp.inBounds : BankerOp → Prop
  | BankerOp.tryAlloc t r => t < MAX_THREADS ∧ r < MAX_RESOURCE
  | BankerOp.allocNocheck t r => t < MAX_THREADS ∧ r < MAX_RESOURCE
  | BankerOp.tryDealloc t r => t < MAX_THREADS ∧ r < MAX_RESOURCE
  | BankerOp.dynExpand t r => t < MAX_THREADS ∧ r < MAX_RESOURCE
  | BankerOp.destroy t => t < MAX_THREADS

/-- Well-formedness of a ring buffer: both cursors below the array size
(established by `empty` and preserved by every operation). -/
def RingBuffer.wf (rb : RingBuffer) : Prop :=
  rb.head_ < MAX_RINGBUF_SIZE ∧ rb.tail_ < MAX_RINGBUF_SIZE

/-- The abstract contents of the ring: the stored bytes from `tail_`
(oldest) to `head_` (newest). -/
def RingBuffer.toList (rb : RingBuffer) : List Nat :=
  (List.range rb.length_).map (fun i => rb.data_ ((rb.tail_ + i) % MAX_RINGBUF_SIZE))


/-- The number of threads a finish vector still leaves unfinished
(the termination measure of the `is_safe` loop). -/
def unfinishedCount (f : Fin MAX_THREADS → Bool) : Nat :=
  (Finset.univ.filter (fun i => f i = false)).card

/-- The invariant of the greedy scan: `safe_seq` lists the finished
threads without repetition in the order they finished, `work` is
`available` plus their `allocated` rows, and `safe_seq` is a valid
declarative execution. -/
def GreedyInv (b : Banker) (st : GreedyState) : Prop :=
  st.safe_seq.Nodup ∧
  (∀ i, st.finish i = true ↔ i ∈ st.safe_seq) ∧
  (∀ r, st.work r = accWork b b.available st.safe_seq r) ∧
  validSeq b st.safe_seq b.available

/-- The three-step trace refuting C10: thread 1 takes the mutex, thread 2
blocks on it, thread 1 unlocks (hand-off to thread 2). -/
def mtxTrace : MutexBlockingInner :=
  ((MutexBlocking.new.lock 1).lock 2).unlock

/-- The state of the C3 failing input: one running thread, deadlock
tracing off, a fresh semaphore with one unit (`count = 1`,
`access_cnt = 0`). -/
def downSuccessState : DownState :=
  { banker := Banker.new, trace_deadlock := false,
    tasks := [some TaskStatus.Running],
    sem := { count := 1, access_cnt := 0, wait_queue := [] } }

/-- The state of the C4 counterexample: deadlock tracing on, one unit of
resource 0 available (so the banker safety check passes), and the only
other thread of the process blocked (so the all-other-threads-blocked
heuristic fires). -/
def downHeuristicState : DownState :=
  { banker := { allocated := fun _ _ => 0, need := fun _ _ => 0,
                available := fun r => if r = 0 then 1 else 0 },
    trace_deadlock := true,
    tasks := [some TaskStatus.Running, some TaskStatus.Blocked],
    sem := { count := 1, access_cnt := 0, wait_queue := [] } }

/-- The C1 counterexample state: one file inode (id 5) with two hard links
`"a"` and `"b"` in the directory, `ref_count = 2`, one data block. -/
def fsTwoLinks : EasyFS :=
  { rootDir := [("a", 5), ("b", 5)],
    files := fun i => if i = 5 then { ref_count := 2, dataBlocks := [7] }
             else { ref_count := 0, dataBlocks := [] },
    freeList := [] }

/-- The C2 counterexample state: inode 5 has a single link `"a"` and two
data blocks; a second unrelated file `"b"` (inode 9) sits in the same
directory. -/
def fsLastLink : EasyFS :=
  { rootDir := [("a", 5), ("b", 9)],
    files := fun i => if i = 5 then { ref_count := 1, dataBlocks := [7, 8] }
             else { ref_count := 1, dataBlocks := [] },
    freeList := [] }

/-- A banker with one unit of resource 0 available and thread 0 needing
one unit: concrete input for the C6 witness. -/
def bankerOne : Banker :=
  { allocated := fun _ _ => 0,
    need := fun t r => if t = 0 ∧ r = 0 then 1 else 0,
    available := fun r => if r = 0 then 1 else 0 }

/-- The empty memory set: concrete input for the C7 witness. -/
def emptyMemorySet : MemorySet := { mapped := fun _ => none }

/-- The 511-byte sequence 0,1,...,510 used as the C8 input. -/
def bytesB : List Nat := List.range 511


/-! ## Helper lemmas -/

theorem upd2_apply_same (m : Fin MAX_THREADS → Fin MAX_RESOURCE → Nat)
    (t : Fin MAX_THREADS) (r : Fin MAX_RESOURCE) (v : Nat) :
    upd2 m t r v t r = v := by
  simp [upd2]

theorem upd2_idem (m : Fin MAX_THREADS → Fin MAX_RESOURCE → Nat)
    (t : Fin MAX_THREADS) (r : Fin MAX_RESOURCE) (v w : Nat) :
    upd2 (upd2 m t r v) t r w = upd2 m t r w := by
  simp [upd2, Function.update_idem]

theorem upd2_self (m : Fin MAX_THREADS → Fin MAX_RESOURCE → Nat)
    (t : Fin MAX_THREADS) (r : Fin MAX_RESOURCE) :
    upd2 m t r (m t r) = m := by
  simp [upd2]

/-! ## C9 - out-of-range thread ids in the banker operations -/

/-- C9: the claim says every `thread_id ≥ MAX_THREADS` is rejected (the
call returns `false`, matrices untouched), keeping the matrix indexing in
bounds.  The guards however read `thread_id > MAX_THREADS`, so
`thread_id = 16` passes them and the subsequent indexing of the 16-row
matrices is out of bounds: every operation evaluates to `none` (a Rust
panic), not to `some (_, false)`. -/
theorem banker_thread_bound_off_by_one :
    Banker.new.try_allocate_one 16 0 = none ∧
    Banker.new.allocate_one_nocheck 16 0 = none ∧
    Banker.new.try_deallocate_one 16 0 = none ∧
    Banker.new.dyn_expand_dealloc 16 0 = none ∧
    Banker.new.setup_thread 16 (fun _ => 0) = none ∧
    Banker.new.destroy_thread 16 = none :=
  ⟨rfl, rfl, rfl, rfl, rfl, rfl⟩

/-! ## C10 - blocking-mutex lock holder across a hand-off -/

/-- C10 counterexample: after the hand-off the mutex is still locked and
thread 2 holds it (it inherited the lock), but `lock_holder` still reads
thread 1, and the deadlock probe run by the actual holder 2 reports
`false`. The claim's "unlock ... updates lock_holder to the woken thread's
tid" is false at this input. -/
theorem mutex_unlock_handoff_cex :
    mtxTrace.locked = true ∧ mtxTrace.owner = some 2 ∧
    mtxTrace.lock_holder = 1 ∧ mtxTrace.lock_holder ≠ 2 ∧
    MutexBlockingInner.trace_lock_is_dead mtxTrace 2 = false := by
  decide

/-- C10 amended: an `unlock` that wakes a queued waiter `w` leaves
`locked` and `lock_holder` unchanged - it does NOT update `lock_holder`
to the woken thread's tid - while `w` becomes the actual owner; so after
a hand-off `lock_holder` holds the previous holder's tid and the deadlock
probe's comparison with the current tid can misreport. -/
theorem mutex_unlock_handoff (m : MutexBlockingInner) (w : Nat) (rest : List Nat)
    (hq : m.wait_queue = w :: rest) :
    m.unlock.locked = m.locked ∧ m.unlock.lock_holder = m.lock_holder ∧
    m.unlock.owner = some w ∧ m.unlock.wait_queue = rest := by
  simp [MutexBlockingInner.unlock, hq]

/-- Witness for `mutex_unlock_handoff` at a concrete locked mutex with one
queued waiter. -/
theorem mutex_unlock_handoff_witness :
    ({ locked := true, wait_queue := [2], lock_holder := 1,
       owner := some 1 } : MutexBlockingInner).unlock.lock_holder = 1 :=
  (mutex_unlock_handoff
    { locked := true, wait_queue := [2], lock_holder := 1, owner := some 1 }
    2 [] rfl).2.1.trans rfl

/-! ## C3 - return value of a successful `sys_semaphore_down` -/

/-- C3: the claim says a `sys_semaphore_down` that acquires the semaphore
(no unsafe report, heuristic not fired) returns 0, and -0xDEAD is
returned only on a deadlock/unsafe detection.  On the very first down of
a fresh semaphore the thread acquires without blocking (count 1 -> 0) and
no detection ran, yet the syscall returns -0xDEAD, because
`Semaphore::down` returns `access_cnt >= 10000` (false for the first
9999 accesses) and `sys_semaphore_down` maps `false` to -0xDEAD. -/
theorem sys_semaphore_down_success_returns_dead :
    (sys_semaphore_down downSuccessState 0 0).1 = -0xDEAD ∧
    (sys_semaphore_down downSuccessState 0 0).2.2 = false ∧
    (sys_semaphore_down downSuccessState 0 0).2.1.sem.count = 0 := by
  decide


/-! ## C4 - banker rollback when `sys_semaphore_down` returns -0xDEAD -/

theorem needInc_need (b : Banker) (t : Fin MAX_THREADS) (r : Fin MAX_RESOURCE) :
    (needInc b t r).need = upd2 b.need t r (b.need t r + 1) := rfl

theorem needInc_allocated (b : Banker) (t : Fin MAX_THREADS) (r : Fin MAX_RESOURCE) :
    (needInc b t r).allocated = b.allocated := rfl

theorem needInc_available (b : Banker) (t : Fin MAX_THREADS) (r : Fin MAX_RESOURCE) :
    (needInc b t r).available = b.available := rfl

theorem upd2_inc_dec_cancel (m : Fin MAX_THREADS → Fin MAX_RESOURCE → Nat)
    (t : Fin MAX_THREADS) (r : Fin MAX_RESOURCE) :
    upd2 (upd2 m t r (m t r + 1)) t r ((upd2 m t r (m t r + 1)) t r - 1) = m := by
  rw [upd2_apply_same, Nat.add_sub_cancel, upd2_idem, upd2_self]

/-- C4 counterexample: this call returns -0xDEAD without blocking via the
all-other-threads-blocked heuristic, and the `need[0][0]` entry it
incremented is left at 1 instead of being restored to its pre-call value
0. -/
theorem sys_semaphore_down_heuristic_no_rollback_cex :
    (sys_semaphore_down downHeuristicState 0 0).1 = -0xDEAD ∧
    (sys_semaphore_down downHeuristicState 0 0).2.2 = false ∧
    downHeuristicState.banker.need 0 0 = 0 ∧
    (sys_semaphore_down downHeuristicState 0 0).2.1.banker.need 0 0 = 1 := by
  decide

/-- C4 amended: when deadlock tracing is on, a -0xDEAD returned from the
banker-unsafe branch does restore the banker (in particular `need`) to
its pre-call value, but a -0xDEAD returned from the
all-other-threads-blocked heuristic leaves the banker at `needInc`, with
`need[tid][sem_id]` still incremented by 1. Both branches return without
blocking. -/
theorem sys_semaphore_down_dead_rollback (st : DownState) (tid : Fin MAX_THREADS)
    (sem_id : Fin MAX_RESOURCE) (htrace : st.trace_deadlock = true) :
    ((needInc st.banker tid sem_id).is_safe = false →
      (sys_semaphore_down st tid sem_id).1 = -0xDEAD ∧
      (sys_semaphore_down st tid sem_id).2.2 = false ∧
      (sys_semaphore_down st tid sem_id).2.1.banker = st.banker) ∧
    ((needInc st.banker tid sem_id).is_safe = true →
      st.tasks.countP (fun t => t = some TaskStatus.Blocked) ≥ st.tasks.length - 1 →
      (sys_semaphore_down st tid sem_id).1 = -0xDEAD ∧
      (sys_semaphore_down st tid sem_id).2.2 = false ∧
      (sys_semaphore_down st tid sem_id).2.1.banker = needInc st.banker tid sem_id ∧
      (needInc st.banker tid sem_id).need tid sem_id = st.banker.need tid sem_id + 1) := by
  constructor
  · intro hunsafe
    simp only [sys_semaphore_down, htrace, hunsafe, Bool.false_eq_true, not_false_eq_true,
      and_self, if_true, true_and]
    simp only [needInc_need, needInc_allocated, needInc_available,
      upd2_inc_dec_cancel st.banker.need tid sem_id]
  · intro hsafe hcnt
    simp only [sys_semaphore_down, htrace, hsafe, not_true_eq_false, and_false, if_false,
      hcnt, ge_iff_le, eq_self_iff_true, true_and, and_true, if_true]
    rw [needInc_need, upd2_apply_same]

/-- Witness for `sys_semaphore_down_dead_rollback` at the concrete
heuristic state. -/
theorem sys_semaphore_down_dead_rollback_witness :
    ((needInc downHeuristicState.banker 0 0).is_safe = false →
      (sys_semaphore_down downHeuristicState 0 0).1 = -0xDEAD ∧
      (sys_semaphore_down downHeuristicState 0 0).2.2 = false ∧
      (sys_semaphore_down downHeuristicState 0 0).2.1.banker = downHeuristicState.banker) ∧
    ((needInc downHeuristicState.banker 0 0).is_safe = true →
      downHeuristicState.tasks.countP (fun t => t = some TaskStatus.Blocked) ≥
        downHeuristicState.tasks.length - 1 →
      (sys_semaphore_down downHeuristicState 0 0).1 = -0xDEAD ∧
      (sys_semaphore_down downHeuristicState 0 0).2.2 = false ∧
      (sys_semaphore_down downHeuristicState 0 0).2.1.banker =
        needInc downHeuristicState.banker 0 0 ∧
      (needInc downHeuristicState.banker 0 0).need 0 0 =
        downHeuristicState.banker.need 0 0 + 1) :=
  sys_semaphore_down_dead_rollback downHeuristicState 0 0 rfl

/-! ## C1 / C2 - hard_unlink -/

/-- C1 counterexample: unlinking inode 5 (reached through `"a"`) while its
`ref_count` is 2 decrements the count to 1, but the directory entry is NOT
removed - the directory is unchanged and `find "a"` still returns the
inode, where the claim says it must return `None`. -/
theorem hard_unlink_keeps_entry_cex :
    (fsTwoLinks.hard_unlink 5).1 = Except.ok () ∧
    ((fsTwoLinks.hard_unlink 5).2.files 5).ref_count = 1 ∧
    (fsTwoLinks.hard_unlink 5).2.find "a" = some 5 ∧
    (fsTwoLinks.hard_unlink 5).2.rootDir = fsTwoLinks.rootDir := by
  refine ⟨by rfl, by decide, by decide, by decide⟩

/-- C1 amended: when `ref_count ≥ 2` before the call, `hard_unlink`
decrements `ref_count` by 1 and succeeds, but does NOT remove the
directory entry: the directory (hence every `find`) is unchanged, and the
file data and the free list are untouched. -/
theorem hard_unlink_keeps_entry (fs : EasyFS) (fid : Nat)
    (h2 : 2 ≤ (fs.files fid).ref_count) :
    (fs.hard_unlink fid).1 = Except.ok () ∧
    (fs.hard_unlink fid).2.rootDir = fs.rootDir ∧
    ((fs.hard_unlink fid).2.files fid).ref_count = (fs.files fid).ref_count - 1 ∧
    (∀ j, ((fs.hard_unlink fid).2.files j).dataBlocks = (fs.files j).dataBlocks) ∧
    (fs.hard_unlink fid).2.freeList = fs.freeList ∧
    (∀ name, (fs.hard_unlink fid).2.find name = fs.find name) := by
  have h0 : ¬ (fs.files fid).ref_count = 0 := by omega
  have hal : (0 < (fs.files fid).ref_count - 1) := by omega
  simp only [EasyFS.hard_unlink, h0, if_false, hal, decide_true_eq_true, if_true,
    decide_eq_true_eq]
  refine ⟨trivial, trivial, ?_, ?_, trivial, fun name => rfl⟩
  · simp [Function.update_same]
  · intro j
    rcases eq_or_ne j fid with h | h
    · subst h; simp [Function.update_same]
    · simp [Function.update_apply, h]

/-- Witness for `hard_unlink_keeps_entry` at the concrete two-link
state. -/
theorem hard_unlink_keeps_entry_witness :
    2 ≤ (fsTwoLinks.files 5).ref_count ∧
    (fsTwoLinks.hard_unlink 5).2.rootDir = fsTwoLinks.rootDir :=
  ⟨by decide, (hard_unlink_keeps_entry fsTwoLinks 5 (by decide)).2.1⟩

theorem findIdx?_append_first {α : Type} (p : α → Bool) :
    ∀ (pre : List α) (x : α) (post : List α) (i : Nat),
      (∀ e ∈ pre, p e = false) → p x = true →
      List.findIdx? p (pre ++ x :: post) i = some (i + pre.length) := by
  intro pre
  induction pre with
  | nil =>
    intro x post i _ hx
    simp [List.findIdx?_cons, hx]
  | cons a pre ih =>
    intro x post i hpre hx
    have ha : p a = false := hpre a (List.mem_cons_self a pre)
    rw [List.cons_append, List.findIdx?_cons, ha]
    simp only [Bool.false_eq_true, if_false]
    rw [ih x post (i + 1) (fun e he => hpre e (List.mem_cons_of_mem a he)) hx]
    congr 1
    simp only [List.length_cons]
    omega

theorem set_length_append {α : Type} :
    ∀ (pre : List α) (x : α) (rest : List α) (v : α),
      (pre ++ x :: rest).set pre.length v = pre ++ v :: rest := by
  intro pre
  induction pre with
  | nil => intro x rest v; rfl
  | cons a pre ih => intro x rest v; simp [List.set_cons_succ, ih]

theorem getD_concat_length {α : Type} (l : List α) (a d : α) :
    (l ++ [a]).getD l.length d = a := by
  rw [List.getD_eq_getElem?_getD, List.getElem?_concat_length]
  rfl

/-- The swap-remove step of `hard_unlink` on a directory that holds
exactly one entry for the unlinked inode: the result is one entry shorter
and no remaining entry points at the inode. -/
theorem swapRemove_len_mem (pre post : List (String × Nat)) (nm : String) (fid : Nat)
    (hpre : ∀ e ∈ pre, e.2 ≠ fid) (hpost : ∀ e ∈ post, e.2 ≠ fid) :
    ((if (pre ++ (nm, fid) :: post).length - 1 ≠ pre.length then
        (pre ++ (nm, fid) :: post).set pre.length
          ((pre ++ (nm, fid) :: post).getD ((pre ++ (nm, fid) :: post).length - 1) ("", 0))
      else pre ++ (nm, fid) :: post).dropLast.length
        = (pre ++ (nm, fid) :: post).length - 1) ∧
    (∀ e ∈ (if (pre ++ (nm, fid) :: post).length - 1 ≠ pre.length then
        (pre ++ (nm, fid) :: post).set pre.length
          ((pre ++ (nm, fid) :: post).getD ((pre ++ (nm, fid) :: post).length - 1) ("", 0))
      else pre ++ (nm, fid) :: post).dropLast, e.2 ≠ fid) := by
  rcases List.eq_nil_or_concat post with hp | ⟨q, b, hp⟩
  · subst hp
    have hc : ¬ ((pre ++ [(nm, fid)]).length - 1 ≠ pre.length) := by
      simp [List.length_append]
    rw [if_neg hc, List.dropLast_concat]
    refine ⟨by simp [List.length_append], hpre⟩
  · rw [List.concat_eq_append] at hp
    subst hp
    have hsplit : pre ++ (nm, fid) :: (q ++ [b]) = (pre ++ (nm, fid) :: q) ++ [b] := by
      simp
    have hlen1 : (pre ++ (nm, fid) :: (q ++ [b])).length - 1
        = (pre ++ (nm, fid) :: q).length := by
      simp [List.length_append]
    have hc : (pre ++ (nm, fid) :: (q ++ [b])).length - 1 ≠ pre.length := by
      simp only [List.length_append, List.length_cons]
      omega
    rw [if_pos hc]
    have hgd : (pre ++ (nm, fid) :: (q ++ [b])).getD
        ((pre ++ (nm, fid) :: (q ++ [b])).length - 1) ("", 0) = b := by
      rw [hlen1]
      conv => lhs; rw [hsplit]
      exact getD_concat_length _ _ _
    rw [hgd, set_length_append]
    have hassoc : pre ++ b :: (q ++ [b]) = (pre ++ b :: q) ++ [b] := by simp
    rw [hassoc, List.dropLast_concat]
    constructor
    · simp [List.length_append]
    · intro e he
      rcases List.mem_append.1 he with h | h
      · exact hpre e h
      · rcases List.mem_cons.1 h with h | h
        · subst h; exact hpost e (by simp)
        · exact hpost e (by simp [h])

/-- C2 counterexample: unlinking the last link of inode 5 removes the
directory entry (swap-remove) and drops `ref_count` to 0, but the inode's
data blocks [7, 8] are NOT returned to the filesystem free list - the
`file.clear()` call is commented out in the source - where the claim says
they are freed. -/
theorem hard_unlink_no_free_cex :
    (fsLastLink.hard_unlink 5).1 = Except.ok () ∧
    (fsLastLink.hard_unlink 5).2.rootDir = [("b", 9)] ∧
    ((fsLastLink.hard_unlink 5).2.files 5).ref_count = 0 ∧
    ((fsLastLink.hard_unlink 5).2.files 5).dataBlocks = [7, 8] ∧
    (fsLastLink.hard_unlink 5).2.freeList = [] := by
  refine ⟨by rfl, by decide, by decide, by decide, by decide⟩

/-- C2 amended: when `ref_count = 1` and the directory holds exactly one
entry for the inode, `hard_unlink` decrements the count to 0 and
swap-removes the directory entry (the directory shrinks by one entry and
no remaining entry points at the inode), but the inode's data blocks are
NOT freed: the free list and every file's data blocks are unchanged. -/
theorem hard_unlink_last_link (fs : EasyFS) (fid : Nat) (nm : String)
    (pre post : List (String × Nat))
    (h1 : (fs.files fid).ref_count = 1)
    (hdir : fs.rootDir = pre ++ (nm, fid) :: post)
    (hpre : ∀ e ∈ pre, e.2 ≠ fid) (hpost : ∀ e ∈ post, e.2 ≠ fid) :
    (fs.hard_unlink fid).1 = Except.ok () ∧
    ((fs.hard_unlink fid).2.files fid).ref_count = 0 ∧
    (fs.hard_unlink fid).2.rootDir.length = fs.rootDir.length - 1 ∧
    (∀ e ∈ (fs.hard_unlink fid).2.rootDir, e.2 ≠ fid) ∧
    (∀ j, ((fs.hard_unlink fid).2.files j).dataBlocks = (fs.files j).dataBlocks) ∧
    (fs.hard_unlink fid).2.freeList = fs.freeList := by
  have h0 : ¬ (fs.files fid).ref_count = 0 := by omega
  have hfind : find_entry_by_inode fs.rootDir fid = some pre.length := by
    rw [hdir]
    unfold find_entry_by_inode
    have := findIdx?_append_first (fun e : String × Nat => e.2 == fid) pre (nm, fid) post 0
      (fun e he => by simpa using hpre e he) (by simp)
    simpa using this
  have halive : decide (0 < (fs.files fid).ref_count - 1) = false := by
    rw [h1]
    rfl
  simp only [EasyFS.hard_unlink, h0, if_false, halive, Bool.false_eq_true, hfind]
  have hsw := swapRemove_len_mem pre post nm fid hpre hpost
  refine ⟨trivial, by simp [Function.update_same, h1], ?_, ?_, ?_, trivial⟩
  · rw [hdir]; exact hsw.1
  · rw [hdir]; exact hsw.2
  · intro j
    rcases eq_or_ne j fid with h | h
    · subst h; simp [Function.update_same]
    · simp [Function.update_apply, h]

/-- Witness for `hard_unlink_last_link` at the concrete last-link
state. -/
theorem hard_unlink_last_link_witness :
    (fsLastLink.files 5).ref_count = 1 ∧
    (fsLastLink.hard_unlink 5).2.freeList = fsLastLink.freeList :=
  ⟨by decide,
   (hard_unlink_last_link fsLastLink 5 "a" [] [("b", 9)] (by decide) rfl
     (by simp) (by decide)).2.2.2.2.2⟩


/-! ## C6 - conservation of `available[r] + sum of allocated[.][r]` -/

theorem upd2_col (m : Fin MAX_THREADS → Fin MAX_RESOURCE → Nat)
    (t : Fin MAX_THREADS) (r' : Fin MAX_RESOURCE) (v : Nat) (r : Fin MAX_RESOURCE) :
    (fun x => upd2 m t r' v x r)
      = Function.update (fun y => m y r) t (Function.update (m t) r' v r) := by
  funext x
  rcases eq_or_ne x t with hx | hx
  · subst hx
    simp [upd2]
  · simp [upd2, Function.update_apply, hx]

theorem sum_col_upd2 (m : Fin MAX_THREADS → Fin MAX_RESOURCE → Nat)
    (t : Fin MAX_THREADS) (r' : Fin MAX_RESOURCE) (v : Nat) (r : Fin MAX_RESOURCE) :
    m t r + ∑ x : Fin MAX_THREADS, upd2 m t r' v x r
      = Function.update (m t) r' v r + ∑ x : Fin MAX_THREADS, m x r := by
  have h1 : ∑ x : Fin MAX_THREADS, upd2 m t r' v x r
      = Function.update (m t) r' v r + ∑ x ∈ Finset.univ \ {t}, m x r := by
    calc ∑ x : Fin MAX_THREADS, upd2 m t r' v x r
        = ∑ x : Fin MAX_THREADS, Function.update (fun y => m y r) t
            (Function.update (m t) r' v r) x :=
          Finset.sum_congr rfl (fun x _ => congrFun (upd2_col m t r' v r) x)
      _ = _ := Finset.sum_update_of_mem (Finset.mem_univ t) _ _
  have h2 : ∑ x : Fin MAX_THREADS, m x r
      = m t r + ∑ x ∈ Finset.univ \ {t}, m x r := by
    calc ∑ x : Fin MAX_THREADS, m x r
        = ∑ x : Fin MAX_THREADS, Function.update (fun y => m y r) t (m t r) x := by
          rw [Function.update_eq_self]
      _ = _ := Finset.sum_update_of_mem (Finset.mem_univ t) _ _
  omega

theorem sum_avail_alloc (avail : Fin MAX_RESOURCE → Nat)
    (alloc : Fin MAX_THREADS → Fin MAX_RESOURCE → Nat)
    (t : Fin MAX_THREADS) (r' : Fin MAX_RESOURCE) (av al : Nat)
    (h : av + al = avail r' + alloc t r') (r : Fin MAX_RESOURCE) :
    Function.update avail r' av r + ∑ x : Fin MAX_THREADS, upd2 alloc t r' al x r
      = avail r + ∑ x : Fin MAX_THREADS, alloc x r := by
  have hs := sum_col_upd2 alloc t r' al r
  rcases eq_or_ne r r' with h' | h'
  · subst h'
    rw [Function.update_same] at hs ⊢
    omega
  · rw [Function.update_noteq h'] at hs ⊢
    omega

theorem update_dec_inc_cancel (a : Fin MAX_RESOURCE → Nat) (r : Fin MAX_RESOURCE)
    (h : a r ≠ 0) :
    Function.update (Function.update a r (a r - 1)) r
      ((Function.update a r (a r - 1)) r + 1) = a := by
  rw [Function.update_same, Function.update_idem]
  have h2 : a r - 1 + 1 = a r := by omega
  rw [h2, Function.update_eq_self]

theorem upd2_dec_inc_cancel (m : Fin MAX_THREADS → Fin MAX_RESOURCE → Nat)
    (t : Fin MAX_THREADS) (r : Fin MAX_RESOURCE) (h : m t r ≠ 0) :
    upd2 (upd2 m t r (m t r - 1)) t r ((upd2 m t r (m t r - 1)) t r + 1) = m := by
  rw [upd2_apply_same, upd2_idem]
  have h2 : m t r - 1 + 1 = m t r := by omega
  rw [h2, upd2_self]

theorem destroyStep_sumR (t : Fin MAX_THREADS) (b : Banker) (rid r : Fin MAX_RESOURCE) :
    sumR (destroyStep t b rid) r = sumR b r := by
  unfold sumR destroyStep
  dsimp only
  have hs := sum_col_upd2 b.allocated t rid 0 r
  rcases eq_or_ne r rid with h' | h'
  · subst h'
    rw [Function.update_same] at hs ⊢
    omega
  · rw [Function.update_noteq h'] at hs ⊢
    omega

theorem foldl_destroy_sumR (t : Fin MAX_THREADS) :
    ∀ (l : List (Fin MAX_RESOURCE)) (b : Banker) (r : Fin MAX_RESOURCE),
      sumR (l.foldl (destroyStep t) b) r = sumR b r := by
  intro l
  induction l with
  | nil => intro b r; rfl
  | cons a l ih =>
    intro b r
    rw [List.foldl_cons, ih, destroyStep_sumR]

/-- C6: every in-bounds banker transition operation succeeds (no panic)
and preserves, for every resource `r`, the quantity
`available[r] + Σ_t allocated[t][r]` - so after the totals are configured
the quantity stays equal to the configured total across any sequence of
these operations. -/
theorem banker_ops_preserve_total (op : BankerOp) (b : Banker) (h : op.inBounds) :
    ∃ b' ret, op.apply b = some (b', ret) ∧ ∀ r, sumR b' r = sumR b r := by
  cases op with
  | tryAlloc t r =>
    obtain ⟨ht, hr⟩ := h
    rw [BankerOp.apply, Banker.try_allocate_one, if_neg (by omega : ¬ MAX_THREADS < t),
      dif_neg (by omega : ¬ MAX_RESOURCE ≤ r), dif_pos ht]
    by_cases hn : b.need ⟨t, ht⟩ ⟨r, by omega⟩ = 0
    · rw [if_pos hn]
      exact ⟨b, false, rfl, fun j => rfl⟩
    · rw [if_neg hn]
      by_cases ha : b.available ⟨r, by omega⟩ = 0
      · rw [if_pos ha]
        exact ⟨b, false, rfl, fun j => rfl⟩
      · rw [if_neg ha]
        by_cases hsafe : Banker.is_safe
            { available := Function.update b.available ⟨r, by omega⟩
                (b.available ⟨r, by omega⟩ - 1),
              allocated := upd2 b.allocated ⟨t, ht⟩ ⟨r, by omega⟩
                (b.allocated ⟨t, ht⟩ ⟨r, by omega⟩ + 1),
              need := upd2 b.need ⟨t, ht⟩ ⟨r, by omega⟩
                (b.need ⟨t, ht⟩ ⟨r, by omega⟩ - 1) } = true
        · rw [if_neg (not_not_intro hsafe)]
          refine ⟨_, _, rfl, ?_⟩
          intro j
          unfold sumR
          dsimp only
          exact sum_avail_alloc b.available b.allocated ⟨t, ht⟩ ⟨r, by omega⟩ _ _
            (by omega) j
        · rw [if_pos hsafe]
          refine ⟨b, false, ?_, fun j => rfl⟩
          dsimp only
          rw [update_dec_inc_cancel _ _ ha, upd2_inc_dec_cancel,
            upd2_dec_inc_cancel _ _ _ hn]
  | allocNocheck t r =>
    obtain ⟨ht, hr⟩ := h
    rw [BankerOp.apply, Banker.allocate_one_nocheck, if_neg (by omega : ¬ MAX_THREADS < t),
      dif_neg (by omega : ¬ MAX_RESOURCE ≤ r), dif_pos ht]
    by_cases hn : b.need ⟨t, ht⟩ ⟨r, by omega⟩ = 0
    · rw [if_pos hn]
      exact ⟨b, false, rfl, fun j => rfl⟩
    · rw [if_neg hn]
      by_cases ha : b.available ⟨r, by omega⟩ = 0
      · rw [if_pos ha]
        exact ⟨b, false, rfl, fun j => rfl⟩
      · rw [if_neg ha]
        refine ⟨_, _, rfl, ?_⟩
        intro j
        unfold sumR
        dsimp only
        exact sum_avail_alloc b.available b.allocated ⟨t, ht⟩ ⟨r, by omega⟩ _ _
          (by omega) j
  | tryDealloc t r =>
    obtain ⟨ht, hr⟩ := h
    rw [BankerOp.apply, Banker.try_deallocate_one, if_neg (by omega : ¬ MAX_THREADS < t),
      dif_neg (by omega : ¬ MAX_RESOURCE ≤ r), dif_pos ht]
    by_cases ha : b.allocated ⟨t, ht⟩ ⟨r, by omega⟩ = 0
    · rw [if_pos ha]
      exact ⟨b, false, rfl, fun j => rfl⟩
    · rw [if_neg ha]
      refine ⟨_, _, rfl, ?_⟩
      intro j
      unfold sumR
      dsimp only
      exact sum_avail_alloc b.available b.allocated ⟨t, ht⟩ ⟨r, by omega⟩ _ _
        (by omega) j
  | dynExpand t r =>
    obtain ⟨ht, hr⟩ := h
    rw [BankerOp.apply, Banker.dyn_expand_dealloc, if_neg (by omega : ¬ MAX_THREADS < t),
      dif_neg (by omega : ¬ MAX_RESOURCE ≤ r), dif_pos ht]
    by_cases ha : b.allocated ⟨t, ht⟩ ⟨r, by omega⟩ = 0
    · rw [if_pos ha]
      exact ⟨b, false, rfl, fun j => rfl⟩
    · rw [if_neg ha]
      refine ⟨_, _, rfl, ?_⟩
      intro j
      unfold sumR
      dsimp only
      exact sum_avail_alloc b.available b.allocated ⟨t, ht⟩ ⟨r, by omega⟩ _ _
        (by omega) j
  | destroy t =>
    have ht : t < MAX_THREADS := h
    rw [BankerOp.apply, Banker.destroy_thread, if_neg (by omega : ¬ MAX_THREADS < t),
      dif_pos ht]
    exact ⟨_, true, rfl, fun r => foldl_destroy_sumR ⟨t, ht⟩ _ b r⟩


/-- Witness for `banker_ops_preserve_total` at a concrete in-bounds
operation. -/
theorem banker_ops_preserve_total_witness :
    (BankerOp.allocNocheck 0 0).inBounds ∧
    (∃ b' ret, (BankerOp.allocNocheck 0 0).apply bankerOne = some (b', ret) ∧
      ∀ r, sumR b' r = sumR bankerOne r) :=
  ⟨⟨by decide, by decide⟩,
   banker_ops_preserve_total (BankerOp.allocNocheck 0 0) bankerOne ⟨by decide, by decide⟩⟩


/-! ## C7 - do_mmap policy -/

theorem or_low_bits_eq (s : Nat) (h : s < 4096) : s ||| 4095 = 4095 := by
  apply Nat.eq_of_testBit_eq
  intro i
  rw [Nat.testBit_or]
  rcases lt_or_ge i 12 with hi | hi
  · have h4 : Nat.testBit 4095 i = true := by
      have h12 := Nat.testBit_two_pow_sub_one 12 i
      norm_num at h12
      rw [h12]
      simpa using hi
    simp [h4]
  · have hpow : (4096 : Nat) ≤ 2 ^ i := by
      have h12 : (4096 : Nat) = 2 ^ 12 := by norm_num
      rw [h12]
      exact Nat.pow_le_pow_right (by norm_num) hi
    have hs : Nat.testBit s i = false := Nat.testBit_lt_two_pow (by omega)
    have h4 : Nat.testBit 4095 i = false := Nat.testBit_lt_two_pow (by omega)
    simp [hs, h4]

theorem land_low_bits (a : Nat) : a &&& 4095 = a % 4096 := by
  have h := Nat.and_pow_two_sub_one_eq_mod a 12
  norm_num at h
  exact h

theorem page_aligned_iff (a : Nat) : page_aligned a = true ↔ a % PAGE_SIZE = 0 := by
  unfold page_aligned PAGE_SIZE
  rw [show (0x0FFF : Nat) = 4095 from rfl, land_low_bits]
  simp

theorem make_page_aligned_eq (len : Nat) :
    make_page_aligned len = PAGE_SIZE * ((len + (PAGE_SIZE - 1)) / PAGE_SIZE) := by
  unfold make_page_aligned PAGE_SIZE
  by_cases hpa : page_aligned len
  · rw [if_pos hpa]
    have h0 : len % 4096 = 0 := (page_aligned_iff len).1 hpa
    omega
  · rw [if_neg hpa]
    have h0 : ¬ len % 4096 = 0 := fun hc => hpa ((page_aligned_iff len).2 hc)
    have hd := Nat.div_add_mod len 4096
    have hmlt : len % 4096 < 4096 := Nat.mod_lt _ (by norm_num)
    have h1 : 4096 * (len / 4096) + len % 4096
        = 4096 * (len / 4096) ||| (len % 4096) := by
      have : (4096 : Nat) = 2 ^ 12 := by norm_num
      rw [this] at hmlt ⊢
      exact Nat.mul_add_lt_is_or hmlt _
    have h2 : len ||| 4095 = 4096 * (len / 4096) + 4095 := by
      calc len ||| 4095 = (4096 * (len / 4096) + len % 4096) ||| 4095 := by rw [hd]
        _ = (4096 * (len / 4096) ||| (len % 4096)) ||| 4095 := by rw [h1]
        _ = 4096 * (len / 4096) ||| ((len % 4096) ||| 4095) := Nat.or_assoc _ _ _
        _ = 4096 * (len / 4096) ||| 4095 := by rw [or_low_bits_eq _ hmlt]
        _ = 4096 * (len / 4096) + 4095 := by
          have h4 : (4095 : Nat) < 2 ^ 12 := by norm_num
          have := (Nat.mul_add_lt_is_or h4 (len / 4096)).symm
          norm_num at this ⊢
          exact this
    rw [show (0x0FFF : Nat) = 4095 from rfl, h2]
    omega

theorem uprot_some_iff (prot : Nat) :
    (uprot_to_permission prot).isSome = true ↔ 1 ≤ prot ∧ prot ≤ 7 := by
  by_cases h8 : 8 ≤ prot
  · unfold uprot_to_permission
    rw [if_pos (Or.inl h8)]
    simp
    omega
  · have h7 : prot < 8 := by omega
    interval_cases prot <;> decide

theorem check_vaddr_false_iff (m : MemorySet) (s e : Nat) :
    check_vaddr_if_mapped m s e = false ↔
      ∀ p, s / PAGE_SIZE ≤ p → p < e / PAGE_SIZE → m.mapped p = none := by
  unfold check_vaddr_if_mapped MemorySet.translate_is_valid
  rw [List.any_eq_false]
  constructor
  · intro h p hp1 hp2
    have hmem : p - s / PAGE_SIZE ∈ List.range (e / PAGE_SIZE - s / PAGE_SIZE) := by
      rw [List.mem_range]
      omega
    have hx := h _ hmem
    have harg : s / PAGE_SIZE + (p - s / PAGE_SIZE) = p := by omega
    rw [harg] at hx
    rcases hmp : m.mapped p with _ | v
    · rfl
    · rw [hmp] at hx
      simp at hx
  · intro h i hi
    rw [List.mem_range] at hi
    have hx := h (s / PAGE_SIZE + i) (by omega) (by omega)
    simp [hx]

/-- C7: `do_mmap(start, len, prot)` on memory set `m` returns 0 exactly
when `start` is page-aligned, `prot` is a nonzero 3-bit mask
(`1 ≤ prot ≤ 7`), and no page of `[start, start + len rounded up to a
page multiple)` is currently mapped; in every other case it returns -1
and leaves the memory set unchanged.  The `usize` bounds restrict the
statement to inputs where the `Nat` embedding agrees with Rust's wrapping
64-bit arithmetic. -/
theorem do_mmap_spec (m : MemorySet) (start len prot : Nat)
    (hstart : start < 2 ^ 64) (hlen : len + PAGE_SIZE ≤ 2 ^ 64)
    (hsum : start + make_page_aligned len < 2 ^ 64) :
    ((do_mmap m start len prot).1 = 0 ↔
      (start % PAGE_SIZE = 0 ∧ 1 ≤ prot ∧ prot ≤ 7 ∧
        ∀ p, start / PAGE_SIZE ≤ p →
          p < (start + PAGE_SIZE * ((len + (PAGE_SIZE - 1)) / PAGE_SIZE)) / PAGE_SIZE →
          m.mapped p = none)) ∧
    ((do_mmap m start len prot).1 ≠ 0 →
      (do_mmap m start len prot).1 = -1 ∧ (do_mmap m start len prot).2 = m) := by
  by_cases hpa : page_aligned start = true
  · rcases huprot : uprot_to_permission prot with _ | perm
    · have hres : do_mmap m start len prot = (-1, m) := by
        unfold do_mmap
        rw [if_neg (not_not_intro hpa), huprot]
      rw [hres]
      have hprot : ¬ (1 ≤ prot ∧ prot ≤ 7) := by
        intro hc
        have := (uprot_some_iff prot).2 hc
        rw [huprot] at this
        simp at this
      constructor
      · simp only [not_false_eq_true]
        constructor
        · intro hc
          norm_num at hc
        · intro hc
          exact absurd ⟨hc.2.1, hc.2.2.1⟩ hprot
      · intro _
        exact ⟨rfl, rfl⟩
    · by_cases hck : check_vaddr_if_mapped m start (start + make_page_aligned len) = true
      · have hres : do_mmap m start len prot = (-1, m) := by
          unfold do_mmap
          rw [if_neg (not_not_intro hpa), huprot]
          dsimp only
          rw [if_pos hck]
        rw [hres]
        constructor
        · constructor
          · intro hc
            norm_num at hc
          · intro hc
            have hnone := (check_vaddr_false_iff m start (start + make_page_aligned len)).2 ?_
            · rw [hnone] at hck
              simp at hck
            · intro p hp1 hp2
              apply hc.2.2.2 p hp1
              rw [make_page_aligned_eq] at hp2
              exact hp2
        · intro _
          exact ⟨rfl, rfl⟩
      · have hck2 : check_vaddr_if_mapped m start (start + make_page_aligned len) = false := by
          simpa using hck
        have hres : do_mmap m start len prot =
            (0, m.insert_framed_area start (start + make_page_aligned len) perm) := by
          unfold do_mmap
          rw [if_neg (not_not_intro hpa), huprot]
          dsimp only
          rw [if_neg (by simp [hck2])]
        rw [hres]
        constructor
        · simp only [true_iff]
          refine ⟨(page_aligned_iff start).1 hpa, ?_, ?_, ?_⟩
          · have := (uprot_some_iff prot).1 (by rw [huprot]; rfl)
            exact this.1
          · have := (uprot_some_iff prot).1 (by rw [huprot]; rfl)
            exact this.2
          · intro p hp1 hp2
            have hall := (check_vaddr_false_iff m start (start + make_page_aligned len)).1 hck2
            apply hall p hp1
            rw [make_page_aligned_eq]
            exact hp2
        · intro hc
          exact absurd rfl hc
  · have hres : do_mmap m start len prot = (-1, m) := by
      unfold do_mmap
      rw [if_pos hpa]
    rw [hres]
    constructor
    · constructor
      · intro hc
        norm_num at hc
      · intro hc
        have := (page_aligned_iff start).2 hc.1
        exact absurd this hpa
    · intro _
      exact ⟨rfl, rfl⟩


/-- Witness for `do_mmap_spec`: mapping two pages at `0x1000` with
`prot = 3` on an empty memory set. -/
theorem do_mmap_spec_witness :
    4096 < 2 ^ 64 ∧ 100 + PAGE_SIZE ≤ 2 ^ 64 ∧
    4096 + make_page_aligned 100 < 2 ^ 64 ∧
    (((do_mmap emptyMemorySet 4096 100 3).1 = 0 ↔
      (4096 % PAGE_SIZE = 0 ∧ 1 ≤ 3 ∧ 3 ≤ 7 ∧
        ∀ p, 4096 / PAGE_SIZE ≤ p →
          p < (4096 + PAGE_SIZE * ((100 + (PAGE_SIZE - 1)) / PAGE_SIZE)) / PAGE_SIZE →
          emptyMemorySet.mapped p = none)) ∧
    ((do_mmap emptyMemorySet 4096 100 3).1 ≠ 0 →
      (do_mmap emptyMemorySet 4096 100 3).1 = -1 ∧
      (do_mmap emptyMemorySet 4096 100 3).2 = emptyMemorySet)) :=
  ⟨by decide, by decide, by decide,
   do_mmap_spec emptyMemorySet 4096 100 3 (by decide) (by decide) (by decide)⟩


/-! ## C8 - mailbox ring push/pop round trip -/

theorem length_le (rb : RingBuffer) (hwf : rb.wf) : rb.length_ ≤ 511 := by
  obtain ⟨hh, ht⟩ := hwf
  unfold RingBuffer.length_
  unfold MAX_RINGBUF_SIZE at hh ht ⊢
  split <;> omega

theorem tail_add_length (rb : RingBuffer) (hwf : rb.wf) :
    (rb.tail_ + rb.length_) % 512 = rb.head_ := by
  obtain ⟨hh, ht⟩ := hwf
  unfold MAX_RINGBUF_SIZE at hh ht
  unfold RingBuffer.length_ MAX_RINGBUF_SIZE
  split <;> omega

theorem is_full_iff (rb : RingBuffer) (hwf : rb.wf) :
    (rb.is_full = true) ↔ rb.length_ = 511 := by
  obtain ⟨hh, ht⟩ := hwf
  unfold MAX_RINGBUF_SIZE at hh ht
  unfold RingBuffer.is_full RingBuffer.length_ wrapSub MAX_RINGBUF_SIZE
  rw [Bool.or_eq_true, beq_iff_eq, beq_iff_eq]
  split <;> omega

theorem is_empty_iff (rb : RingBuffer) (hwf : rb.wf) :
    (rb.is_empty = true) ↔ rb.length_ = 0 := by
  obtain ⟨hh, ht⟩ := hwf
  unfold MAX_RINGBUF_SIZE at hh ht
  unfold RingBuffer.is_empty RingBuffer.length_ MAX_RINGBUF_SIZE
  rw [beq_iff_eq]
  split <;> omega

theorem toList_length (rb : RingBuffer) : rb.toList.length = rb.length_ := by
  simp [RingBuffer.toList]

theorem length_eq (rb : RingBuffer) (hwf : rb.wf) :
    rb.length_ = (rb.head_ + 512 - rb.tail_) % 512 := by
  obtain ⟨hh, ht⟩ := hwf
  unfold MAX_RINGBUF_SIZE at hh ht
  unfold RingBuffer.length_ MAX_RINGBUF_SIZE
  split <;> omega

theorem append_u8_full (rb : RingBuffer) (c : Nat) (hwf : rb.wf)
    (hf : rb.length_ = 511) : rb.append_u8 c = (rb, RingBufferStatus.Full) := by
  unfold RingBuffer.append_u8
  rw [if_pos ((is_full_iff rb hwf).2 hf)]

theorem append_u8_spec (rb : RingBuffer) (c : Nat) (hwf : rb.wf)
    (hnf : rb.length_ ≤ 510) :
    (rb.append_u8 c).1.wf ∧
    (rb.append_u8 c).1.length_ = rb.length_ + 1 ∧
    (rb.append_u8 c).1.toList = rb.toList ++ [c] ∧
    (rb.append_u8 c).2 =
      (if rb.length_ = 510 then RingBufferStatus.Full else RingBufferStatus.Normal) := by
  obtain ⟨hh, ht⟩ := hwf
  have hh' := hh
  have ht' := ht
  unfold MAX_RINGBUF_SIZE at hh' ht'
  have hnotfull : ¬ (rb.is_full = true) := by
    rw [is_full_iff rb ⟨hh, ht⟩]
    omega
  have hleq := length_eq rb ⟨hh, ht⟩
  unfold RingBuffer.append_u8
  rw [if_neg hnotfull]
  dsimp only
  set rb2 : RingBuffer :=
    { data_ := Function.update rb.data_ rb.head_ c,
      head_ := if rb.head_ == MAX_RINGBUF_SIZE - 1 then 0 else rb.head_ + 1,
      tail_ := rb.tail_ } with hrb2
  have hhead2 : rb2.head_ = (rb.head_ + 1) % 512 := by
    rw [hrb2]
    dsimp only
    rcases Nat.decEq rb.head_ 511 with h | h
    · rw [if_neg (by simpa [MAX_RINGBUF_SIZE] using h)]
      omega
    · rw [if_pos (by simpa [MAX_RINGBUF_SIZE] using h)]
      omega
  have htail2 : rb2.tail_ = rb.tail_ := rfl
  have hwf2 : rb2.wf := by
    constructor
    · rw [hhead2]
      unfold MAX_RINGBUF_SIZE
      omega
    · rw [htail2]
      exact ht
  have hlen2 : rb2.length_ = rb.length_ + 1 := by
    rw [length_eq rb2 hwf2, hhead2, htail2, hleq]
    omega
  have hdata2 : ∀ i, i ≠ rb.head_ → rb2.data_ i = rb.data_ i := by
    intro i hi
    rw [hrb2]
    dsimp only
    rw [Function.update_noteq hi]
  have htoList : rb2.toList = rb.toList ++ [c] := by
    unfold RingBuffer.toList
    rw [hlen2, htail2, List.range_succ, List.map_append]
    congr 1
    · apply List.map_congr_left
      intro i hi
      rw [List.mem_range] at hi
      apply hdata2
      unfold MAX_RINGBUF_SIZE
      intro hc
      rw [hleq] at hi
      omega
    · simp only [List.map_cons, List.map_nil]
      congr 1
      have hidx : (rb.tail_ + rb.length_) % MAX_RINGBUF_SIZE = rb.head_ := by
        unfold MAX_RINGBUF_SIZE
        rw [hleq]
        omega
      rw [hidx]
      exact Function.update_same rb.head_ c rb.data_
  have hsplit1 : (if rb2.is_full = true then (rb2, RingBufferStatus.Full)
      else (rb2, RingBufferStatus.Normal)).1 = rb2 := by
    split <;> rfl
  rw [hsplit1]
  refine ⟨hwf2, hlen2, htoList, ?_⟩
  rcases Nat.decEq rb.length_ 510 with h | h
  · rw [if_neg h]
    have hnf2 : ¬ (rb2.is_full = true) := by
      rw [is_full_iff rb2 hwf2, hlen2]
      omega
    rw [if_neg hnf2]
  · rw [if_pos h]
    have hf2 : rb2.is_full = true := by
      rw [is_full_iff rb2 hwf2, hlen2, h]
    rw [if_pos hf2]

theorem pop_front_empty (rb : RingBuffer) (hwf : rb.wf) (h0 : rb.length_ = 0) :
    rb.pop_front = (none, rb) := by
  unfold RingBuffer.pop_front
  rw [if_pos ((is_empty_iff rb hwf).2 h0)]

theorem pop_front_spec (rb : RingBuffer) (hwf : rb.wf) (h0 : 0 < rb.length_) :
    (rb.pop_front).1 = some (rb.data_ rb.tail_) ∧
    (rb.pop_front).2.wf ∧
    (rb.pop_front).2.length_ = rb.length_ - 1 ∧
    rb.toList = rb.data_ rb.tail_ :: (rb.pop_front).2.toList := by
  obtain ⟨hh, ht⟩ := hwf
  have hh' := hh
  have ht' := ht
  unfold MAX_RINGBUF_SIZE at hh' ht'
  have hleq := length_eq rb ⟨hh, ht⟩
  have hne : ¬ (rb.is_empty = true) := by
    rw [is_empty_iff rb ⟨hh, ht⟩]
    omega
  unfold RingBuffer.pop_front
  rw [if_neg hne]
  dsimp only
  set rb2 : RingBuffer :=
    { data_ := rb.data_,
      head_ := rb.head_,
      tail_ := if rb.tail_ == MAX_RINGBUF_SIZE - 1 then 0 else rb.tail_ + 1 } with hrb2
  have htail2 : rb2.tail_ = (rb.tail_ + 1) % 512 := by
    rw [hrb2]
    dsimp only
    rcases Nat.decEq rb.tail_ 511 with h | h
    · rw [if_neg (by simpa [MAX_RINGBUF_SIZE] using h)]
      omega
    · rw [if_pos (by simpa [MAX_RINGBUF_SIZE] using h)]
      omega
  have hwf2 : rb2.wf := by
    constructor
    · exact hh
    · rw [htail2]
      unfold MAX_RINGBUF_SIZE
      omega
  have hlen2 : rb2.length_ = rb.length_ - 1 := by
    rw [length_eq rb2 hwf2, htail2, hleq]
    have : rb2.head_ = rb.head_ := rfl
    rw [this]
    omega
  refine ⟨rfl, hwf2, hlen2, ?_⟩
  unfold RingBuffer.toList
  have hLsucc : rb.length_ = (rb.length_ - 1) + 1 := by omega
  rw [hlen2, htail2]
  conv => lhs; rw [hLsucc]
  rw [List.range_succ_eq_map, List.map_cons]
  congr 1
  · unfold MAX_RINGBUF_SIZE
    congr 1
    omega
  · rw [List.map_map]
    apply List.map_congr_left
    intro i hi
    rw [List.mem_range] at hi
    unfold MAX_RINGBUF_SIZE
    have harg : (rb.tail_ + Nat.succ i) % 512 = ((rb.tail_ + 1) % 512 + i) % 512 := by
      omega
    simp only [Function.comp_apply]
    rw [harg]

theorem push_bytes_spec :
    ∀ (B : List Nat) (rb : RingBuffer), rb.wf →
      (rb.push_bytes B).2.wf ∧
      (rb.push_bytes B).2.length_ = rb.length_ + min B.length (511 - rb.length_) ∧
      (rb.push_bytes B).2.toList = rb.toList ++ B.take (min B.length (511 - rb.length_)) ∧
      (rb.push_bytes B).1 = (if rb.length_ + B.length ≤ 510 then B.length
        else 510 - rb.length_) := by
  intro B
  induction B with
  | nil =>
    intro rb hwf
    have hle := length_le rb hwf
    refine ⟨hwf, by simp [RingBuffer.push_bytes], by simp [RingBuffer.push_bytes], ?_⟩
    simp only [RingBuffer.push_bytes, List.length_nil, Nat.add_zero]
    split <;> omega
  | cons c cs ih =>
    intro rb hwf
    have hle := length_le rb hwf
    rcases Nat.decEq rb.length_ 511 with hfull | hfull
    · -- not yet full: the append stores the byte
      have h510 : rb.length_ ≤ 510 := by omega
      obtain ⟨hwf2, hlen2, htl2, hst2⟩ := append_u8_spec rb c hwf h510
      rcases happ : rb.append_u8 c with ⟨rb2, st⟩
      rw [happ] at hwf2 hlen2 htl2 hst2
      dsimp only at hwf2 hlen2 htl2 hst2
      rcases Nat.decEq rb.length_ 510 with h510' | h510'
      · -- the byte does not fill the buffer: status Normal, recurse
        rw [if_neg h510'] at hst2
        subst hst2
        simp only [RingBuffer.push_bytes, happ]
        obtain ⟨ihwf, ihlen, ihtl, ihn⟩ := ih rb2 hwf2
        refine ⟨ihwf, ?_, ?_, ?_⟩
        · rw [ihlen, hlen2]
          simp only [List.length_cons]
          omega
        · rw [ihtl, htl2, hlen2]
          have hmin : min cs.length (511 - (rb.length_ + 1))
              = min (c :: cs).length (511 - rb.length_) - 1 := by
            simp only [List.length_cons]
            omega
          rw [hmin]
          have htake : c :: cs.take (min (c :: cs).length (511 - rb.length_) - 1)
              = (c :: cs).take (min (c :: cs).length (511 - rb.length_)) := by
            have h1 : 1 ≤ min (c :: cs).length (511 - rb.length_) := by
              simp only [List.length_cons]
              omega
            rcases Nat.exists_eq_add_of_le h1 with ⟨k, hk⟩
            rw [hk]
            simp [List.take_succ_cons, Nat.add_comm]
          rw [List.append_assoc, List.singleton_append, htake]
        · rw [ihn, hlen2]
          simp only [List.length_cons]
          split <;> split <;> omega
      · -- the byte fills the buffer: status Full, break without counting
        rw [if_pos h510'] at hst2
        subst hst2
        simp only [RingBuffer.push_bytes, happ]
        refine ⟨hwf2, ?_, ?_, ?_⟩
        · rw [hlen2, h510']
          simp only [List.length_cons]
          omega
        · rw [htl2, h510']
          have : min (c :: cs).length (511 - 510) = 1 := by
            simp only [List.length_cons]
            omega
          rw [this]
          simp
        · rw [h510']
          simp only [List.length_cons]
          split <;> omega
    · -- already full: append drops the byte and reports Full
      have happf := append_u8_full rb c hwf hfull
      simp only [RingBuffer.push_bytes, happf]
      refine ⟨hwf, ?_, ?_, ?_⟩
      · rw [hfull]
        simp only [List.length_cons]
        omega
      · rw [hfull]
        simp
      · rw [hfull]
        simp only [List.length_cons]
        split <;> omega

theorem pop_bytes_spec :
    ∀ (n : Nat) (rb : RingBuffer), rb.wf →
      (rb.pop_bytes n).1 = rb.toList.take n ∧
      (rb.pop_bytes n).2.wf ∧
      (rb.pop_bytes n).2.toList = rb.toList.drop n := by
  intro n
  induction n with
  | zero =>
    intro rb hwf
    exact ⟨by simp [RingBuffer.pop_bytes], hwf, by simp [RingBuffer.pop_bytes]⟩
  | succ n ih =>
    intro rb hwf
    rcases Nat.decEq rb.length_ 0 with h0 | h0
    · -- non-empty
      have hpos : 0 < rb.length_ := by omega
      obtain ⟨hv, hwf2, _, htl⟩ := pop_front_spec rb hwf hpos
      rcases hpop : rb.pop_front with ⟨v, rb2⟩
      rw [hpop] at hv hwf2 htl
      dsimp only at hv hwf2 htl
      subst hv
      simp only [RingBuffer.pop_bytes, hpop]
      obtain ⟨ihtake, ihwf, ihdrop⟩ := ih rb2 hwf2
      refine ⟨?_, ihwf, ?_⟩
      · rw [htl, List.take_succ_cons, ihtake]
      · rw [htl, List.drop_succ_cons, ihdrop]
    · -- empty
      have hemp := pop_front_empty rb hwf h0
      have hnil : rb.toList = [] := by
        have := toList_length rb
        rw [h0] at this
        exact List.eq_nil_of_length_eq_zero this
      simp only [RingBuffer.pop_bytes, hemp, hnil]
      exact ⟨by simp, hwf, by simp⟩

/-- C8: the claim (and `push_bytes`'s own doc, "Returns bytes written
in") says a push of `B` onto the empty ring returns `min(|B|, 511)`.  For
a 511-byte `B` all 511 bytes ARE stored (the buffer length becomes 511
and a subsequent `pop_bytes 511` returns exactly `B` in order), but
`push_bytes` returns 510: `append_u8` reports `Full` after storing the
byte that fills the buffer, and `push_bytes` breaks out of its loop
before counting that byte. -/
theorem push_bytes_full_uncounted :
    (RingBuffer.empty.push_bytes bytesB).1 = 510 ∧
    (RingBuffer.empty.push_bytes bytesB).2.length_ = 511 ∧
    ((RingBuffer.empty.push_bytes bytesB).2.pop_bytes 511).1 = bytesB := by
  have hwfe : RingBuffer.empty.wf := ⟨by norm_num [RingBuffer.empty, MAX_RINGBUF_SIZE],
    by norm_num [RingBuffer.empty, MAX_RINGBUF_SIZE]⟩
  have hlen0 : RingBuffer.empty.length_ = 0 := rfl
  have htl0 : RingBuffer.empty.toList = [] := rfl
  have hB : bytesB.length = 511 := by simp [bytesB]
  obtain ⟨hwf, hlen, htl, hn⟩ := push_bytes_spec bytesB RingBuffer.empty hwfe
  rw [hlen0, hB] at hlen hn
  rw [htl0, hlen0, hB] at htl
  have htake : bytesB.take (min 511 (511 - 0)) = bytesB := by
    have hmin : min 511 (511 - 0) = 511 := by omega
    rw [hmin, ← hB, List.take_length]
  rw [htake, List.nil_append] at htl
  refine ⟨by rw [hn]; norm_num, by rw [hlen]; omega, ?_⟩
  obtain ⟨hp1, _, _⟩ := pop_bytes_spec 511 (RingBuffer.empty.push_bytes bytesB).2 hwf
  rw [hp1, htl, ← hB, List.take_length]



/-! ## C5 - the greedy safety scan equals the declarative safety condition -/

theorem greedyStep_found_false (b : Banker) (s : GreedyState × Bool) (i : Fin MAX_THREADS)
    (h : (greedyStep b s i).2 = false) : greedyStep b s i = s := by
  rcases s with ⟨st, found⟩
  unfold greedyStep at h ⊢
  dsimp only at h ⊢
  by_cases hf : st.finish i = true
  · rw [if_pos hf] at h ⊢
  · rw [if_neg hf] at h ⊢
    by_cases hn : needLe b i st.work = true
    · rw [if_pos hn] at h
      simp at h
    · rw [if_neg hn] at h ⊢

theorem greedyStep_keeps_found (b : Banker) (s : GreedyState × Bool) (i : Fin MAX_THREADS)
    (h : s.2 = true) : (greedyStep b s i).2 = true := by
  rcases s with ⟨st, found⟩
  unfold greedyStep
  dsimp only at h ⊢
  subst h
  by_cases hf : st.finish i = true
  · rw [if_pos hf]
  · rw [if_neg hf]
    by_cases hn : needLe b i st.work = true
    · rw [if_pos hn]
    · rw [if_neg hn]

theorem foldl_found_false (b : Banker) :
    ∀ (l : List (Fin MAX_THREADS)) (s : GreedyState × Bool),
      (List.foldl (greedyStep b) s l).2 = false → List.foldl (greedyStep b) s l = s := by
  intro l
  induction l with
  | nil => intro s _; rfl
  | cons i l ih =>
    intro s h
    rw [List.foldl_cons] at h ⊢
    have h1 := ih (greedyStep b s i) h
    rw [h1] at h ⊢
    rw [greedyStep_found_false b s i h]

theorem greedyStep_finish_mono (b : Banker) (s : GreedyState × Bool) (i j : Fin MAX_THREADS)
    (h : s.1.finish j = true) : (greedyStep b s i).1.finish j = true := by
  rcases s with ⟨st, found⟩
  unfold greedyStep
  dsimp only at h ⊢
  by_cases hf : st.finish i = true
  · rw [if_pos hf]
    exact h
  · rw [if_neg hf]
    by_cases hn : needLe b i st.work = true
    · rw [if_pos hn]
      dsimp only
      rcases eq_or_ne j i with hj | hj
      · subst hj
        rw [Function.update_same]
      · rw [Function.update_noteq hj]
        exact h
    · rw [if_neg hn]
      exact h

theorem foldl_finish_mono (b : Banker) :
    ∀ (l : List (Fin MAX_THREADS)) (s : GreedyState × Bool) (j : Fin MAX_THREADS),
      s.1.finish j = true → (List.foldl (greedyStep b) s l).1.finish j = true := by
  intro l
  induction l with
  | nil => intro s j h; exact h
  | cons i l ih =>
    intro s j h
    rw [List.foldl_cons]
    exact ih _ j (greedyStep_finish_mono b s i j h)

theorem greedyStep_productive (b : Banker) (s : GreedyState × Bool) (i : Fin MAX_THREADS)
    (h0 : s.2 = false) (h : (greedyStep b s i).2 = true) :
    s.1.finish i = false ∧ (greedyStep b s i).1.finish i = true := by
  rcases s with ⟨st, found⟩
  dsimp only at h0
  subst h0
  unfold greedyStep at h ⊢
  dsimp only at h ⊢
  by_cases hf : st.finish i = true
  · rw [if_pos hf] at h
    simp at h
  · rw [if_neg hf] at h ⊢
    by_cases hn : needLe b i st.work = true
    · rw [if_pos hn]
      dsimp only
      exact ⟨by simpa using hf, Function.update_same i true st.finish⟩
    · rw [if_neg hn] at h
      simp at h

theorem foldl_exists_flipped (b : Banker) :
    ∀ (l : List (Fin MAX_THREADS)) (s : GreedyState × Bool),
      s.2 = false → (List.foldl (greedyStep b) s l).2 = true →
      ∃ j, s.1.finish j = false ∧ (List.foldl (greedyStep b) s l).1.finish j = true := by
  intro l
  induction l with
  | nil =>
    intro s h0 h
    rw [List.foldl_nil] at h
    rw [h] at h0
    exact absurd h0 (by simp)
  | cons i l ih =>
    intro s h0 h
    rw [List.foldl_cons] at h ⊢
    rcases hs1 : (greedyStep b s i).2 with _ | _
    · have heq := greedyStep_found_false b s i hs1
      rw [heq] at h ⊢
      exact ih s h0 h
    · obtain ⟨hfa, hfb⟩ := greedyStep_productive b s i h0 hs1
      exact ⟨i, hfa, foldl_finish_mono b l _ i hfb⟩

theorem unfinished_lt (f g : Fin MAX_THREADS → Bool)
    (hmono : ∀ j, f j = true → g j = true) (j0 : Fin MAX_THREADS)
    (hf : f j0 = false) (hg : g j0 = true) :
    unfinishedCount g < unfinishedCount f := by
  unfold unfinishedCount
  apply Finset.card_lt_card
  constructor
  · intro x hx
    rw [Finset.mem_filter] at hx ⊢
    refine ⟨Finset.mem_univ x, ?_⟩
    rcases hfx : f x with _ | _
    · rfl
    · rw [hmono x hfx] at hx
      exact absurd hx.2 (by simp)
  · intro hsub
    have hj0 : j0 ∈ Finset.univ.filter (fun i => f i = false) := by
      rw [Finset.mem_filter]
      exact ⟨Finset.mem_univ j0, hf⟩
    have := hsub hj0
    rw [Finset.mem_filter] at this
    rw [hg] at this
    exact absurd this.2 (by simp)

theorem greedyPass_decreases (b : Banker) (st : GreedyState)
    (h : (greedyPass b st).2 = true) :
    unfinishedCount (greedyPass b st).1.finish < unfinishedCount st.finish := by
  obtain ⟨j, hj1, hj2⟩ := foldl_exists_flipped b (List.finRange MAX_THREADS) (st, false) rfl h
  exact unfinished_lt st.finish (greedyPass b st).1.finish
    (fun i hi => foldl_finish_mono b (List.finRange MAX_THREADS) (st, false) i hi) j hj1 hj2

theorem greedyRun_fixpoint (b : Banker) :
    ∀ (fuel : Nat) (st : GreedyState), unfinishedCount st.finish < fuel →
      (greedyPass b (greedyRun b fuel st)).2 = false := by
  intro fuel
  induction fuel with
  | zero =>
    intro st h
    exact absurd h (by omega)
  | succ n ih =>
    intro st h
    show (greedyPass b (greedyRun b (n + 1) st)).2 = false
    unfold greedyRun
    rcases hp : greedyPass b st with ⟨st2, found⟩
    rcases found with _ | _
    · dsimp only
      have heq := foldl_found_false b (List.finRange MAX_THREADS) (st, false)
        (by rw [show List.foldl (greedyStep b) (st, false) (List.finRange MAX_THREADS) = greedyPass b st from rfl, hp])
      rw [show List.foldl (greedyStep b) (st, false) (List.finRange MAX_THREADS) = greedyPass b st from rfl, hp] at heq
      have hst2 : st2 = st := congrArg Prod.fst heq
      simp only [Bool.false_eq_true, if_false]
      rw [hst2, hp]
    · dsimp only
      apply ih
      have hdec := greedyPass_decreases b st (by rw [hp])
      rw [hp] at hdec
      dsimp only at hdec
      omega

theorem foldl_maximal (b : Banker) :
    ∀ (l : List (Fin MAX_THREADS)) (s : GreedyState × Bool),
      (List.foldl (greedyStep b) s l).2 = false →
      ∀ i ∈ l, s.1.finish i = false → needLe b i s.1.work = false := by
  intro l
  induction l with
  | nil =>
    intro s _ i hi
    exact absurd hi (List.not_mem_nil i)
  | cons j l ih =>
    intro s h i hi
    rw [List.foldl_cons] at h
    have h1 := foldl_found_false b l (greedyStep b s j) h
    have hs1found : (greedyStep b s j).2 = false := by
      rw [h1] at h
      exact h
    have hs1 := greedyStep_found_false b s j hs1found
    rcases List.mem_cons.1 hi with hij | hil
    · subst hij
      intro hif
      rcases hn : needLe b i s.1.work with _ | _
      · rfl
      · exfalso
        rcases s with ⟨st, found⟩
        unfold greedyStep at hs1found
        dsimp only at hif hn hs1found
        rw [if_neg (by rw [hif]; simp), if_pos hn] at hs1found
        simp at hs1found
    · intro hif
      have hh := ih (greedyStep b s j) h i hil
      rw [hs1] at hh
      exact hh hif

theorem greedyPass_maximal (b : Banker) (st : GreedyState)
    (h : (greedyPass b st).2 = false) :
    ∀ i, st.finish i = false → needLe b i st.work = false := by
  intro i hi
  exact foldl_maximal b (List.finRange MAX_THREADS) (st, false) h i
    (List.mem_finRange i) hi

theorem accWork_cons (b : Banker) (w : Fin MAX_RESOURCE → Nat) (t : Fin MAX_THREADS)
    (l : List (Fin MAX_THREADS)) (r : Fin MAX_RESOURCE) :
    accWork b w (t :: l) r = accWork b (fun r' => w r' + b.allocated t r') l r := by
  unfold accWork
  simp only [List.map_cons, List.sum_cons]
  omega

theorem accWork_append_one (b : Banker) (w : Fin MAX_RESOURCE → Nat)
    (l : List (Fin MAX_THREADS)) (t : Fin MAX_THREADS) (r : Fin MAX_RESOURCE) :
    accWork b w (l ++ [t]) r = accWork b w l r + b.allocated t r := by
  unfold accWork
  simp only [List.map_append, List.sum_append, List.map_cons, List.map_nil,
    List.sum_cons, List.sum_nil]
  omega

theorem validSeq_append (b : Banker) :
    ∀ (l : List (Fin MAX_THREADS)) (w : Fin MAX_RESOURCE → Nat) (t : Fin MAX_THREADS),
      validSeq b l w → (∀ r, b.need t r ≤ accWork b w l r) → validSeq b (l ++ [t]) w := by
  intro l
  induction l with
  | nil =>
    intro w t _ hneed
    refine ⟨?_, trivial⟩
    intro r
    have := hneed r
    unfold accWork at this
    simpa using this
  | cons a l ih =>
    intro w t hv hneed
    obtain ⟨ha, hrest⟩ := hv
    refine ⟨ha, ?_⟩
    apply ih _ t hrest
    intro r
    have := hneed r
    rw [accWork_cons] at this
    exact this

theorem validSeq_middle (b : Banker) :
    ∀ (p : List (Fin MAX_THREADS)) (t : Fin MAX_THREADS) (s : List (Fin MAX_THREADS))
      (w : Fin MAX_RESOURCE → Nat),
      validSeq b (p ++ t :: s) w → ∀ r, b.need t r ≤ accWork b w p r := by
  intro p
  induction p with
  | nil =>
    intro t s w hv r
    obtain ⟨ht, _⟩ := hv
    have := ht r
    unfold accWork
    simpa using this
  | cons a p ih =>
    intro t s w hv r
    obtain ⟨_, hrest⟩ := hv
    have := ih t s _ hrest r
    rw [accWork_cons]
    exact this

theorem greedyStep_inv (b : Banker) (s : GreedyState × Bool) (i : Fin MAX_THREADS)
    (h : GreedyInv b s.1) : GreedyInv b (greedyStep b s i).1 := by
  rcases s with ⟨st, found⟩
  obtain ⟨hnd, hiff, hwork, hvalid⟩ := h
  unfold greedyStep
  dsimp only at hnd hiff hwork hvalid ⊢
  by_cases hf : st.finish i = true
  · rw [if_pos hf]
    exact ⟨hnd, hiff, hwork, hvalid⟩
  · rw [if_neg hf]
    by_cases hn : needLe b i st.work = true
    · rw [if_pos hn]
      dsimp only
      have hnotmem : i ∉ st.safe_seq := by
        intro hc
        exact hf ((hiff i).2 hc)
      have hneed : ∀ r, b.need i r ≤ accWork b b.available st.safe_seq r := by
        intro r
        have := (by simpa [needLe] using hn : ∀ r, b.need i r ≤ st.work r) r
        rw [hwork r] at this
        exact this
      refine ⟨?_, ?_, ?_, ?_⟩
      · rw [List.nodup_append]
        exact ⟨hnd, List.nodup_singleton i, by simpa using hnotmem⟩
      · intro j
        dsimp only
        rcases eq_or_ne j i with hj | hj
        · subst hj
          simp [Function.update_same]
        · rw [Function.update_noteq hj]
          rw [List.mem_append, List.mem_singleton]
          constructor
          · intro hjt
            exact Or.inl ((hiff j).1 hjt)
          · intro hjt
            rcases hjt with hjt | hjt
            · exact (hiff j).2 hjt
            · exact absurd hjt hj
      · intro r
        rw [accWork_append_one, ← hwork r]
      · exact validSeq_append b st.safe_seq b.available i hvalid hneed
    · rw [if_neg hn]
      exact ⟨hnd, hiff, hwork, hvalid⟩

theorem foldl_inv (b : Banker) :
    ∀ (l : List (Fin MAX_THREADS)) (s : GreedyState × Bool),
      GreedyInv b s.1 → GreedyInv b (List.foldl (greedyStep b) s l).1 := by
  intro l
  induction l with
  | nil => intro s h; exact h
  | cons i l ih =>
    intro s h
    rw [List.foldl_cons]
    exact ih _ (greedyStep_inv b s i h)

theorem greedyRun_inv (b : Banker) :
    ∀ (fuel : Nat) (st : GreedyState),
      GreedyInv b st → GreedyInv b (greedyRun b fuel st) := by
  intro fuel
  induction fuel with
  | zero => intro st h; exact h
  | succ n ih =>
    intro st h
    unfold greedyRun
    rcases hp : greedyPass b st with ⟨st2, found⟩
    have hinv2 : GreedyInv b st2 := by
      have := foldl_inv b (List.finRange MAX_THREADS) (st, false) h
      rw [show List.foldl (greedyStep b) (st, false) (List.finRange MAX_THREADS)
        = greedyPass b st from rfl, hp] at this
      exact this
    rcases found with _ | _
    · simp only [Bool.false_eq_true, if_false]
      exact hinv2
    · simp only [if_true]
      exact ih st2 hinv2

theorem nodup_sum_le (p q : List (Fin MAX_THREADS)) (hp : p.Nodup) (hq : q.Nodup)
    (hsub : ∀ x ∈ p, x ∈ q) (f : Fin MAX_THREADS → Nat) :
    (p.map f).sum ≤ (q.map f).sum := by
  rw [← List.sum_toFinset f hp, ← List.sum_toFinset f hq]
  apply Finset.sum_le_sum_of_subset
  intro x hx
  rw [List.mem_toFinset] at hx ⊢
  exact hsub x hx

theorem first_false {α : Type} (l : List α) (f : α → Bool)
    (h : ∃ x ∈ l, f x = false) :
    ∃ p t s, l = p ++ t :: s ∧ f t = false ∧ ∀ x ∈ p, f x = true := by
  induction l with
  | nil =>
    obtain ⟨x, hx, _⟩ := h
    exact absurd hx (List.not_mem_nil x)
  | cons a l ih =>
    rcases ha : f a with _ | _
    · exact ⟨[], a, l, rfl, ha, by simp⟩
    · have h' : ∃ x ∈ l, f x = false := by
        obtain ⟨x, hx, hfx⟩ := h
        rcases List.mem_cons.1 hx with hxa | hxl
        · subst hxa
          rw [ha] at hfx
          exact absurd hfx (by simp)
        · exact ⟨x, hxl, hfx⟩
      obtain ⟨p, t, s, hsplit, hft, hall⟩ := ih h'
      refine ⟨a :: p, t, s, by rw [List.cons_append, hsplit], hft, ?_⟩
      intro x hx
      rcases List.mem_cons.1 hx with hxa | hxp
      · subst hxa
        exact ha
      · exact hall x hxp

/-- C5: `Banker::is_safe` returns `true` exactly when some ordering of all
16 threads lets every thread finish, starting from `work = available` and
accumulating each finished thread's `allocated` row into `work` - the
greedy scan computes exactly the declarative safety condition of spec
section 4.10. -/
theorem banker_is_safe_iff_decl (b : Banker) :
    b.is_safe = true ↔ BankerDeclSafe b := by
  have hinv0 : GreedyInv b
      { work := b.available, finish := fun _ => false, safe_seq := [] } := by
    refine ⟨List.nodup_nil, ?_, ?_, trivial⟩
    · intro i
      simp
    · intro r
      simp [accWork]
  have hfinal := greedyRun_inv b (MAX_THREADS + 1) _ hinv0
  constructor
  · intro hsafe
    unfold Banker.is_safe at hsafe
    rw [List.all_eq_true] at hsafe
    obtain ⟨hnd, hiff, hwork, hvalid⟩ := hfinal
    refine ⟨(greedyRun b (MAX_THREADS + 1)
      { work := b.available, finish := fun _ => false, safe_seq := [] }).safe_seq,
      hnd, ?_, hvalid⟩
    intro i
    exact (hiff i).1 (by simpa using hsafe i (List.mem_finRange i))
  · intro hdecl
    by_contra hns
    obtain ⟨l, hlnd, hlall, hlvalid⟩ := hdecl
    have hfix := greedyRun_fixpoint b (MAX_THREADS + 1)
      { work := b.available, finish := fun _ => false, safe_seq := [] }
      ((by decide : unfinishedCount (fun _ : Fin MAX_THREADS => false) < MAX_THREADS + 1))
    have hmax := greedyPass_maximal b _ hfix
    have hex : ∃ i0, (greedyRun b (MAX_THREADS + 1)
        { work := b.available, finish := fun _ => false, safe_seq := [] }).finish i0
          = false := by
      by_contra hc
      push_neg at hc
      apply hns
      unfold Banker.is_safe
      rw [List.all_eq_true]
      intro i _
      have := hc i
      simpa using this
    obtain ⟨i0, hi0⟩ := hex
    obtain ⟨p, t, s, hsplit, hft, hpfin⟩ :=
      first_false l _ ⟨i0, hlall i0, hi0⟩
    have hneedt := validSeq_middle b p t s b.available (by rw [← hsplit]; exact hlvalid)
    obtain ⟨hnd, hiff, hwork, _⟩ := hfinal
    have hpnd : p.Nodup := by
      rw [hsplit] at hlnd
      exact hlnd.of_append_left
    have hsub : ∀ x ∈ p, x ∈ (greedyRun b (MAX_THREADS + 1)
        { work := b.available, finish := fun _ => false, safe_seq := [] }).safe_seq :=
      fun x hx => (hiff x).1 (hpfin x hx)
    have hneedle : needLe b t (greedyRun b (MAX_THREADS + 1)
        { work := b.available, finish := fun _ => false, safe_seq := [] }).work = true := by
      unfold needLe
      rw [decide_eq_true_eq]
      intro r
      have h1 := hneedt r
      have h2 := nodup_sum_le p _ hpnd hnd hsub (fun u => b.allocated u r)
      rw [hwork r]
      unfold accWork at h1 ⊢
      omega
    have hcontra := hmax t hft
    rw [hneedle] at hcontra
    exact absurd hcontra (by simp)
